import Mathlib

/-!
Verification of the bitcask-style key-value store.

This file shallowly embeds the storage engine and wire protocol of the
repository (crates `kvs`, `protocol`, `kvs-server`) and proves / refutes the
frozen claims about them.

Modelling conventions:
  * Rust byte slices and `String` / `str` values are modelled as `List Nat`
    (each element an octet).  A Rust `str` is exactly a UTF-8 valid byte
    sequence, so string-typed data carries a `utf8Valid` side condition where
    the source performs `str::from_utf8`.
  * Machine integers are `Nat` with explicit `% 2^w` at the operations where
    the source converts or could wrap (`key.len() as u32`, usize addition).
  * Files are modelled by their contents (a byte list); the cached `len`
    field of a `LogFile` always equals the content length in the source, so
    it is not duplicated.
  * Rust panics (slice index out of range, `.expect`, `panic!` macro calls)
    are modelled by an explicit `.crash` outcome.
  * `HashMap<String, Index>` is modelled as an association list without
    duplicate keys; iteration order of `values_mut()` is the list order
    (the source's iteration order is arbitrary; all claims proved here are
    insensitive to which order is picked).
-/

/-! ## Big-endian byte encoding (`u32::to_be_bytes`, `u64::to_be_bytes`) -/

/-- Big-endian byte string of width `w` for the value `n` (the model of
`to_be_bytes` applied to an already-truncated value). -/
def beBytes : Nat → Nat → List Nat
  | 0, _ => []
  | w + 1, n => beBytes w (n / 256) ++ [n % 256]

/-- Big-endian decoding of a byte string (the model of `from_be_bytes`). -/
def beDecode (l : List Nat) : Nat :=
  l.foldl (fun acc b => acc * 256 + b) 0

/-! ## UTF-8 validity (the model of `str::from_utf8` succeeding) -/

/-- One step of UTF-8 validation, as a byte-at-a-time automaton.  The first
argument is the list of (lower, upper) bounds still expected for pending
continuation bytes of the current multi-byte scalar.  The accepted language
is exactly the RFC 3629 well-formed byte sequences, i.e. the byte strings on
which Rust's `str::from_utf8` succeeds. -/
def utf8Run : List (Nat × Nat) → List Nat → Bool
  | [], [] => true
  | _ :: _, [] => false
  | [], b :: l =>
    if b ≤ 0x7F then utf8Run [] l
    else if b < 0xC2 then false
    else if b ≤ 0xDF then utf8Run [(0x80, 0xBF)] l
    else if b ≤ 0xEF then
      utf8Run [((if b = 0xE0 then 0xA0 else 0x80), (if b = 0xED then 0x9F else 0xBF)),
        (0x80, 0xBF)] l
    else if b ≤ 0xF4 then
      utf8Run [((if b = 0xF0 then 0x90 else 0x80), (if b = 0xF4 then 0x8F else 0xBF)),
        (0x80, 0xBF), (0x80, 0xBF)] l
    else false
  | (lo, hi) :: pend, b :: l => decide (lo ≤ b ∧ b ≤ hi) && utf8Run pend l

/-- UTF-8 validity of a byte sequence (the condition under which
`str::from_utf8` returns `Ok`). -/
def utf8Valid (l : List Nat) : Bool := utf8Run [] l

/-- The byte list of an ASCII string literal (a convenience for concrete keys,
values and error messages, which are all ASCII in the claims). -/
def asciiBytes (s : String) : List Nat := s.data.map Char.toNat

/-! ## The record codec (`protocol/src/cmd.rs`) -/

/-- `protocol::Cmd`: a request / log record.  Key and value are the byte
lists of the Rust `str` values. -/
inductive Cmd where
  | set (key value : List Nat)
  | get (key : List Nat)
  | rm (key : List Nat)
deriving DecidableEq

def HEADER_KEY_BYTES : Nat := 4

def HEADER_VALUE_BYTES : Nat := 8

def HEADER_BYTES : Nat := HEADER_KEY_BYTES + HEADER_VALUE_BYTES

/-- `u64::MAX`: the `value_length` sentinel marking a `Get` record. -/
def GET_VALUE_LEN : Nat := 2 ^ 64 - 1

/-- `GET_VALUE_LEN - 1`: the `value_length` sentinel marking a `Rm` record. -/
def RM_VALUE_LEN : Nat := GET_VALUE_LEN - 1

def U32_MOD : Nat := 2 ^ 32

def U64_MOD : Nat := 2 ^ 64

/-- The key of a command (`Cmd::write` / `KvStore::write_cmd` extract it the
same way for all three variants). -/
def Cmd.key : Cmd → List Nat
  | .set k _ => k
  | .get k => k
  | .rm k => k

/-- `Cmd::write`: the exact bytes written into the writer.  `key.len() as
u32` truncates, hence the `% U32_MOD`; `value.len() as u64` is a usize-to-u64
conversion, written with `% U64_MOD` to make the machine width explicit. -/
def Cmd.write : Cmd → List Nat
  | .set key value =>
    beBytes 4 (key.length % U32_MOD) ++ beBytes 8 (value.length % U64_MOD) ++ key ++ value
  | .get key => beBytes 4 (key.length % U32_MOD) ++ beBytes 8 GET_VALUE_LEN ++ key
  | .rm key => beBytes 4 (key.length % U32_MOD) ++ beBytes 8 RM_VALUE_LEN ++ key

/-- `Cmd::parse_header`: split 12 header bytes into big-endian key and value
lengths. -/
def Cmd.parse_header (header : List Nat) : Nat × Nat :=
  (beDecode (header.take HEADER_KEY_BYTES),
   beDecode ((header.drop HEADER_KEY_BYTES).take HEADER_VALUE_BYTES))

/-- `Cmd::parse_body`: interpret the body after the header, given the two
header lengths.  Error strings are the source's messages. -/
def Cmd.parse_body (key_len value_len : Nat) (bytes : List Nat) : Except String Cmd :=
  if bytes.length < key_len then .error "Insufficient data for key"
  else if utf8Valid (bytes.take key_len) then
    if value_len = GET_VALUE_LEN then .ok (.get (bytes.take key_len))
    else if value_len = RM_VALUE_LEN then .ok (.rm (bytes.take key_len))
    else if value_len ≤ (bytes.drop key_len).length then
      if utf8Valid ((bytes.drop key_len).take value_len) then
        .ok (.set (bytes.take key_len) ((bytes.drop key_len).take value_len))
      else .error "Non-UTF8 value"
    else .error "Insufficient data for value"
  else .error "Non-UTF8 key"

/-- Decoding one record from a byte string: header split plus `parse_body`
(the composition used by the framer and by the codec's own tests). -/
def Cmd.parse (bytes : List Nat) : Except String Cmd :=
  if bytes.length < HEADER_BYTES then .error "Missing proper header"
  else
    let hdr := Cmd.parse_header (bytes.take HEADER_BYTES)
    Cmd.parse_body hdr.1 hdr.2 (bytes.drop HEADER_BYTES)

/-- The side conditions under which a `Cmd` is representable on the wire:
key and value are `str` contents (UTF-8), the key length fits in `u32`, a
`Set` value length avoids the two sentinels, and the body length fits in
`usize`. -/
def validCmd : Cmd → Bool
  | .set k v =>
    decide (k.length < U32_MOD) && utf8Valid k && decide (v.length ≤ U64_MOD - 3)
      && decide (k.length + v.length < U64_MOD) && utf8Valid v
  | .get k => decide (k.length < U32_MOD) && utf8Valid k
  | .rm k => decide (k.length < U32_MOD) && utf8Valid k

/-! ## The stream framer (`protocol/src/cmd/reader.rs`) -/

/-- Outcome of `Reader::read_cmd`.  `ok c n` is `Ok(Some(ReadResult))` with
`bytes_read = n`; `none` is `Ok(None)`; `err` is `Err(..)` (the payload is
the underlying message, before `anyhow` context is attached); `crash` is a
Rust panic. -/
inductive ReadOutcome where
  | none
  | ok (c : Cmd) (bytes_read : Nat)
  | err (msg : String)
  | crash
deriving DecidableEq

/-- `Reader::read_cmd` reading from a byte source.

Derivation from the source: `read_to_end` drives `CmdReader` until it
returns `Ok(0)`.  In state `ReadingHeader` the `CmdReader` copies up to 12
bytes from the source; if the source hits EOF first, the partial header
(fewer than 12 bytes) is all that ever reaches the buffer.  Once 12 header
bytes are in, `parse_header` fixes `total_len` (a wrapping usize sum in
release builds, hence `% U64_MOD`) and state `ReadingCmd` copies at most
`total_len` further bytes, again stopping early at EOF.  Back in
`read_cmd`: a zero-length buffer yields `Ok(None)`; otherwise the buffer is
`split_at(HEADER_BYTES)` -- which PANICS when the buffer holds 1..=11 bytes
-- and the remainder goes through `parse_body`. -/
def Reader.read_cmd (src : List Nat) : ReadOutcome :=
  let header := src.take HEADER_BYTES
  if header.length = 0 then .none
  else if header.length < HEADER_BYTES then .crash
  else
    let hdr := Cmd.parse_header header
    let total_len :=
      if hdr.2 = GET_VALUE_LEN ∨ hdr.2 = RM_VALUE_LEN then hdr.1
      else (hdr.1 + hdr.2) % U64_MOD
    let body := (src.drop HEADER_BYTES).take total_len
    match Cmd.parse_body hdr.1 hdr.2 body with
    | .ok c => .ok c (HEADER_BYTES + body.length)
    | .error e => .err e

deriving instance DecidableEq for Except

/-! ## The response codec (`protocol/src/response.rs`) -/

/-- `protocol::Response`.  Payloads are the byte lists of the Rust `str`
values. -/
inductive Response where
  | successfulSet
  | successfulRm
  | successfulGet (value : List Nat)
  | keyNotFound
  | err (msg : List Nat)
deriving DecidableEq

/-- `Response::write`: tag byte (`s` = 115, `r` = 114, `g` = 103, `n` = 110,
`e` = 101) followed by the payload. -/
def Response.write : Response → List Nat
  | .successfulSet => [115]
  | .successfulRm => [114]
  | .successfulGet value => 103 :: value
  | .keyNotFound => [110]
  | .err msg => 101 :: msg

/-- `Response::from_bytes`: UTF-8 validation of the whole buffer, then
dispatch on the first byte.  Total: malformed input maps to `Err` payloads,
never a failure. -/
def Response.from_bytes (bytes : List Nat) : Response :=
  if utf8Valid bytes then
    match bytes with
    | [] => .err (asciiBytes "Invalid start byte")
    | b :: rest =>
      if b = 115 then .successfulSet
      else if b = 114 then .successfulRm
      else if b = 103 then .successfulGet rest
      else if b = 110 then .keyNotFound
      else if b = 101 then .err rest
      else .err (asciiBytes "Invalid start byte")
  else .err (asciiBytes "Invalid utf8")

/-! ## The storage engine (`kvs/src/kv_store.rs`) -/

/-- `ACTIVE_FILE_IDX = usize::MAX` (64-bit target). -/
def ACTIVE_FILE_IDX : Nat := 2 ^ 64 - 1

/-- `FILE_SIZE_LIMIT`: 1 MiB. -/
def FILE_SIZE_LIMIT : Nat := 1024 * 1024

/-- `kvs::kv_store::Index`: a log pointer held by the in-memory index. -/
structure Index where
  file_idx : Nat
  file_offset : Nat
deriving DecidableEq

/-- The in-memory index `HashMap<String, Index>`, modelled as an association
list without duplicate keys. -/
abbrev IndexMap := List (List Nat × Index)

/-- `HashMap::get`. -/
def lookupKey : IndexMap → List Nat → Option Index
  | [], _ => none
  | (k', e) :: rest, k => if k' = k then some e else lookupKey rest k

/-- `HashMap::insert`: returns the previous value and the updated map
(replacement in place, appending fresh keys at the end). -/
def insertKey : IndexMap → List Nat → Index → Option Index × IndexMap
  | [], k, e => (none, [(k, e)])
  | (k', e') :: rest, k, e =>
    if k' = k then (some e', (k, e) :: rest)
    else
      match insertKey rest k e with
      | (prev, rest') => (prev, (k', e') :: rest')

/-- `HashMap::remove`: returns the previous value and the updated map. -/
def removeKey : IndexMap → List Nat → Option Index × IndexMap
  | [], _ => (none, [])
  | (k', e') :: rest, k =>
    if k' = k then (some e', rest)
    else
      match removeKey rest k with
      | (prev, rest') => (prev, (k', e') :: rest')

/-- A compaction policy is its single method
`should_compact(CompactionContext { open_immutable_files, dead_commands })`,
passed here as the two context fields in that order. -/
def maxFilePolicy (max_files : Nat) : Nat → Nat → Bool :=
  fun open_immutable_files _dead_commands => max_files < open_immutable_files

/-- `MaxFilePolicy::default()`: fires when more than 8 immutable files are
open. -/
def defaultPolicy : Nat → Nat → Bool := maxFilePolicy 8

/-- `NeverPolicy`. -/
def neverPolicy : Nat → Nat → Bool := fun _ _ => false

/-- Errors and aborts surfaced by engine operations.  `crash` stands for a
Rust panic (the process dies); `keyNotFound` is `Error::msg("Key not
found")`; `corrupt` carries any other propagated error message. -/
inductive KvError where
  | keyNotFound
  | crash
  | corrupt (msg : String)
deriving DecidableEq

/-- `kvs::KvStore`.  `active_file` and `immutable_files` are file contents;
`compaction_policy` is the policy's `should_compact` method. -/
structure KvStore where
  active_file : List Nat
  immutable_files : List (List Nat)
  index : IndexMap
  dead_data_count : Nat
  compaction_policy : Nat → Nat → Bool

/-- Dereference an index slot: the sentinel denotes the active file, any
other value an immutable slot (`None` models the slice-index panic). -/
def fileContent (s : KvStore) (idx : Nat) : Option (List Nat) :=
  if idx = ACTIVE_FILE_IDX then some s.active_file else s.immutable_files[idx]?

/-- The roll-over rewrite in `write_cmd`: every index entry bearing the
active sentinel is repointed at `slot`. -/
def relabelActive : IndexMap → Nat → IndexMap
  | [], _ => []
  | (k, e) :: rest, slot =>
    (if e.file_idx = ACTIVE_FILE_IDX then (k, Index.mk slot e.file_offset) else (k, e))
      :: relabelActive rest slot

/-- The loop of `KvStore::compactify` over the index entries (`values_mut`
iteration in association-list order; the claims proved below hold for any
order).  Arguments: the immutable file list read from, the remaining
entries, the compacted file's contents so far.  Returns the rewritten
entries and the final compacted contents.  Entries still pointing at the
active file are skipped; every other entry is read (a missing record is the
`.expect` panic), its record re-appended, and the entry repointed at slot 0
with the append offset. -/
def compactify_go (files : List (List Nat)) :
    IndexMap → List Nat → Except KvError (IndexMap × List Nat)
  | [], compacted => .ok ([], compacted)
  | (k, e) :: rest, compacted =>
    if e.file_idx = ACTIVE_FILE_IDX then
      match compactify_go files rest compacted with
      | .ok (rest', comp') => .ok ((k, e) :: rest', comp')
      | .error err => .error err
    else
      match files[e.file_idx]? with
      | none => .error .crash
      | some content =>
        match Reader.read_cmd (content.drop e.file_offset) with
        | .ok c _ =>
          match compactify_go files rest (compacted ++ Cmd.write c) with
          | .ok (rest', comp') => .ok ((k, Index.mk 0 compacted.length) :: rest', comp')
          | .error err => .error err
        | .none => .error .crash
        | .err m => .error (.corrupt m)
        | .crash => .error .crash

/-- `KvStore::compactify`: write live immutable records into a fresh file
(whose `0000-` name keeps it before any future active file), unlink all old
immutable files, install the compacted file as the only immutable slot, and
reset the dead-record counter. -/
def KvStore.compactify (s : KvStore) : Except KvError KvStore :=
  match compactify_go s.immutable_files s.index [] with
  | .ok (index', compacted) =>
    .ok { s with immutable_files := [compacted], index := index', dead_data_count := 0 }
  | .error e => .error e

/-- `KvStore::write_cmd`: append the record to the active file, insert the
active-sentinel index entry (counting a superseded immutable entry as a dead
record), roll over when the PRE-append offset exceeds `FILE_SIZE_LIMIT`,
then consult the compaction policy. -/
def KvStore.write_cmd (s : KvStore) (cmd : Cmd) : Except KvError KvStore :=
  let file_offset := s.active_file.length
  let active1 := s.active_file ++ Cmd.write cmd
  let inserted := insertKey s.index cmd.key (Index.mk ACTIVE_FILE_IDX file_offset)
  let dead1 :=
    match inserted.1 with
    | some previous_value =>
      if previous_value.file_idx ≠ ACTIVE_FILE_IDX then s.dead_data_count + 1
      else s.dead_data_count
    | none => s.dead_data_count
  let s1 :=
    if FILE_SIZE_LIMIT < file_offset then
      { s with
        active_file := ([] : List Nat),
        immutable_files := s.immutable_files ++ [active1],
        index := relabelActive inserted.2 s.immutable_files.length,
        dead_data_count := dead1 }
    else
      { s with active_file := active1, index := inserted.2, dead_data_count := dead1 }
  if s1.compaction_policy s1.immutable_files.length s1.dead_data_count then s1.compactify
  else .ok s1

/-- `KvStore::get` (`KvsEngine` impl): follow the index entry, read one
record there, and return its value; a missing record or a non-`Set` record
is a panic. -/
def KvStore.get (s : KvStore) (key : List Nat) : Except KvError (Option (List Nat)) :=
  match lookupKey s.index key with
  | some e =>
    match fileContent s e.file_idx with
    | none => .error .crash
    | some content =>
      match Reader.read_cmd (content.drop e.file_offset) with
      | .ok (.set _ value) _ => .ok (some value)
      | .ok (.rm _) _ => .error .crash
      | .ok (.get _) _ => .error .crash
      | .none => .error .crash
      | .err m => .error (.corrupt m)
      | .crash => .error .crash
  | none => .ok none

/-- `KvStore::set`. -/
def KvStore.set (s : KvStore) (key value : List Nat) : Except KvError KvStore :=
  s.write_cmd (.set key value)

/-- `KvStore::remove`: a get-miss fails with `KeyNotFound` writing nothing;
otherwise a `Rm` record is written and then the index entry deleted. -/
def KvStore.remove (s : KvStore) (key : List Nat) : Except KvError KvStore :=
  match s.get key with
  | .ok (some _) =>
    match s.write_cmd (.rm key) with
    | .ok s' => .ok { s' with index := (removeKey s'.index key).2 }
    | .error e => .error e
  | .ok none => .error .keyNotFound
  | .error e => .error e

/-- The loop of `KvStore::hydrate_file`: replay records of one file from the
front, tracking the byte offset and the superseded-record count.  The fuel
argument only forces termination; any fuel exceeding the remaining byte
count gives the loop's semantics (each parsed record consumes at least 12
bytes). -/
def hydrate_go (file_idx : Nat) :
    Nat → IndexMap → List Nat → Nat → Nat → Except KvError (IndexMap × Nat)
  | 0, _, _, _, _ => .error .crash
  | fuel + 1, index, rest, off, dead =>
    match Reader.read_cmd rest with
    | .none => .ok (index, dead)
    | .ok c n =>
      match c with
      | .get _ => .error .crash
      | .set k _ =>
        hydrate_go file_idx fuel (insertKey index k (Index.mk file_idx off)).2
          (rest.drop n) (off + n)
          (if (insertKey index k (Index.mk file_idx off)).1.isSome then dead + 1 else dead)
      | .rm k =>
        hydrate_go file_idx fuel (removeKey index k).2 (rest.drop n) (off + n)
          (if (removeKey index k).1.isSome then dead + 1 else dead)
    | .err m => .error (.corrupt m)
    | .crash => .error .crash

/-- `KvStore::hydrate_file` applied to a file's contents. -/
def hydrate_file (index : IndexMap) (content : List Nat) (file_idx : Nat) :
    Except KvError (IndexMap × Nat) :=
  hydrate_go file_idx (content.length + 1) index content 0 0

/-- The immutable-file loop of `KvStore::hydrate`: hydrate each file in
order, accumulating the dead-record count. -/
def hydrate_files (index : IndexMap) (dead : Nat) (start_idx : Nat) :
    List (List Nat) → Except KvError (IndexMap × Nat)
  | [] => .ok (index, dead)
  | f :: rest =>
    match hydrate_file index f start_idx with
    | .ok (index', d) => hydrate_files index' (dead + d) (start_idx + 1) rest
    | .error e => .error e

/-- `KvStore::open_with_policy`, given the contents of the directory's files
in ascending path order: the last file is the active one (an empty fresh
file when the directory is empty), the rest are immutable; then the index is
hydrated, counting dead records of immutable files only (the active file's
count is discarded, as in `hydrate`). -/
def KvStore.openStore (files : List (List Nat)) (policy : Nat → Nat → Bool) :
    Except KvError KvStore :=
  let active := (files.getLast?).getD []
  let immut := files.dropLast
  match hydrate_files [] 0 0 immut with
  | .ok (index1, dead) =>
    match hydrate_file index1 active ACTIVE_FILE_IDX with
    | .ok (index2, _) =>
      .ok { active_file := active, immutable_files := immut, index := index2,
            dead_data_count := dead, compaction_policy := policy }
    | .error e => .error e
  | .error e => .error e

/-- The store produced by `KvStore::open` on an empty directory (a fresh
empty active file, no immutable files, an empty index). -/
def KvStore.openEmpty (policy : Nat → Nat → Bool) : KvStore :=
  { active_file := [], immutable_files := [], index := [], dead_data_count := 0,
    compaction_policy := policy }

/-! ## Operation sequences and their specification -/

/-- A public mutating operation of the engine. -/
inductive Op where
  | set (key value : List Nat)
  | rm (key : List Nat)

def validOp : Op → Bool
  | .set k v => validCmd (.set k v)
  | .rm k => validCmd (.rm k)

def validOps (ops : List Op) : Bool := ops.all validOp

/-- Apply one public operation through the engine's interface.  A `remove`
of an absent key returns `Err(KeyNotFound)` to the caller without mutating
the store, so the run continues with the same store; panics and other
errors abort the run. -/
def applyOp (s : KvStore) : Op → Except KvError KvStore
  | .set k v => s.set k v
  | .rm k =>
    match s.remove k with
    | .ok s' => .ok s'
    | .error .keyNotFound => .ok s
    | .error e => .error e

def runOps (s : KvStore) : List Op → Except KvError KvStore
  | [] => .ok s
  | op :: rest =>
    match applyOp s op with
    | .ok s' => runOps s' rest
    | .error e => .error e

/-- The abstract map semantics: the value of `k` is the most recent
`set(k, v)` not superseded by a later `set(k, _)` or `rm(k)`. -/
def specApply (m : List Nat → Option (List Nat)) : Op → List Nat → Option (List Nat)
  | .set k v => fun q => if q = k then some v else m q
  | .rm k => fun q => if q = k then none else m q

def specRun (m : List Nat → Option (List Nat)) (ops : List Op) :
    List Nat → Option (List Nat) :=
  ops.foldl specApply m

def specEmpty : List Nat → Option (List Nat) := fun _ => none

/-! ## Index invariants -/

/-- The record encoded by `c` lies at offset `off` of `content`. -/
def startsAt (content : List Nat) (off : Nat) (pre : List Nat) : Prop :=
  (content.drop off).take pre.length = pre

/-- Index entry `e` points at the start of the record `c` in the store's
files. -/
def EntryFor (s : KvStore) (e : Index) (c : Cmd) : Prop :=
  ∃ content, fileContent s e.file_idx = some content
    ∧ startsAt content e.file_offset (Cmd.write c)

/-- The index is exactly described by the record assignment `A`: keys are
unduplicated, a key is present iff `A` assigns it a record, and each entry
points at the encoding of its assigned record, which is representable and
carries the same key. -/
structure GoodIndex (s : KvStore) (A : List Nat → Option Cmd) : Prop where
  nodup : (s.index.map Prod.fst).Nodup
  lookup_none : ∀ k, lookupKey s.index k = none ↔ A k = none
  resolve : ∀ k e, lookupKey s.index k = some e →
    ∃ c, A k = some c ∧ validCmd c = true ∧ c.key = k ∧ EntryFor s e c

/-- The record assignment induced by an abstract key-value map: every live
key is assigned its `Set` record. -/
def AofM (M : List Nat → Option (List Nat)) : List Nat → Option Cmd :=
  fun k => (M k).map fun v => Cmd.set k v

/-- The abstract key-value map read off a record assignment (the inverse of
`AofM` on assignments made of `Set` records). -/
def mapOf (A : List Nat → Option Cmd) : List Nat → Option (List Nat) :=
  fun k =>
    match A k with
    | some (.set _ v) => some v
    | _ => none

/-- Every index entry dereferences to a `Set` record for its own key (the
claim-C3 property, stated through the reader). -/
def IndexResolvesToSet (s : KvStore) : Prop :=
  ∀ k e, lookupKey s.index k = some e →
    ∃ content value n, fileContent s e.file_idx = some content
      ∧ Reader.read_cmd (content.drop e.file_offset) = .ok (.set k value) n

def allOctets (l : List Nat) : Bool := l.all (· < 256)

/-! ## The server loop (`kvs-server/src/server.rs`) -/

/-- The message text of an engine error as the server formats it
(`e.to_string()`). -/
def kvErrMsg : KvError → List Nat
  | .keyNotFound => asciiBytes "Key not found"
  | .corrupt m => asciiBytes m
  | .crash => []

/-- `Server::handle_set`: the response chosen for a set request (`none`
models the process dying in a panic, which never reaches a response). -/
def Server.handle_set (s : KvStore) (k v : List Nat) : Option Response :=
  match s.set k v with
  | .ok _ => some .successfulSet
  | .error .crash => none
  | .error e => some (.err (kvErrMsg e))

/-- `Server::handle_get`. -/
def Server.handle_get (s : KvStore) (k : List Nat) : Option Response :=
  match s.get k with
  | .ok (some val) => some (.successfulGet val)
  | .ok none => some .keyNotFound
  | .error .crash => none
  | .error e => some (.err (kvErrMsg e))

/-- `Server::handle_rm`. -/
def Server.handle_rm (s : KvStore) (k : List Nat) : Option Response :=
  match s.remove k with
  | .ok _ => some .successfulRm
  | .error .crash => none
  | .error e => some (.err (kvErrMsg e))

/-- One connection of `Server::run`: the bytes written back on the stream
for a given request byte stream.  On `Ok(None)` (clean EOF before any byte)
and on a framer error the server writes RAW text bytes -- not a
`Response::write` encoding.  The framer error text is the outermost
`anyhow` context, `"parsing command body"`, for every malformed request (a
pure byte source cannot produce the io-error context).  `none` models a
server panic. -/
def Server.connection_reply (s : KvStore) (request : List Nat) : Option (List Nat) :=
  match Reader.read_cmd request with
  | .none => some (asciiBytes "Response had no data")
  | .err _ => some (asciiBytes "parsing command body")
  | .crash => none
  | .ok c _ =>
    match c with
    | .set k v => (Server.handle_set s k v).map Response.write
    | .get k => (Server.handle_get s k).map Response.write
    | .rm k => (Server.handle_rm s k).map Response.write

/-! ## Engine selection (`kvs-server/src/engine.rs`, `kvs/src/kv_store.rs`
open path) -/

/-- Lexicographic byte order on path names (`PathBuf` ordering for
single-component names). -/
def lexLe : List Nat → List Nat → Bool
  | [], _ => true
  | _ :: _, [] => false
  | a :: as', b :: bs' => if a < b then true else if b < a then false else lexLe as' bs'

def insertSorted (x : List Nat) : List (List Nat) → List (List Nat)
  | [] => [x]
  | y :: rest => if lexLe x y then x :: y :: rest else y :: insertSorted x rest

/-- `paths.sort_unstable()` (insertion sort; directory entries are distinct,
so stability is irrelevant). -/
def sortPaths : List (List Nat) → List (List Nat)
  | [] => []
  | x :: rest => insertSorted x (sortPaths rest)

/-- The file selection of `KvStore::open_with_policy`: sort ALL directory
entries, pop the last as the active file (falling back to a fresh
timestamped name), keep the rest as immutable files.  No name filtering of
any kind is applied. -/
def openSelect (fresh : List Nat) (paths : List (List Nat)) :
    List Nat × List (List Nat) :=
  ((sortPaths paths).getLast?.getD fresh, (sortPaths paths).dropLast)

def isSledMarker (name : List Nat) : Bool :=
  name = asciiBytes "conf" || name = asciiBytes "db"

def isKvsFile (name : List Nat) : Bool :=
  (asciiBytes ".pingcap").isSuffixOf name

inductive PreviousEngine where
  | kvs
  | sled
  | noneDetected
deriving DecidableEq

/-- `Engine::determine_previous_engine`: first matching directory entry
wins, in directory iteration order. -/
def determine_previous_engine : List (List Nat) → PreviousEngine
  | [] => .noneDetected
  | name :: rest =>
    if isSledMarker name then .sled
    else if isKvsFile name then .kvs
    else determine_previous_engine rest

/-- `Engine::new_in(Some(EngineType::Kvs), dir)` up to the engine-mismatch
check: bails out when the directory is detected as a sled directory,
otherwise proceeds to `KvStore::open`. -/
def engineNewInKvs (names : List (List Nat)) : Except String Unit :=
  match determine_previous_engine names with
  | .sled => .error "Can't open kvs engine in sled directory"
  | _ => .ok ()

theorem beDecode_append_singleton (l : List Nat) (b : Nat) :
    beDecode (l ++ [b]) = beDecode l * 256 + b := by
  simp [beDecode]

theorem length_beBytes (w n : Nat) : (beBytes w n).length = w := by
  induction w generalizing n with
  | zero => rfl
  | succ w ih => simp [beBytes, ih]

theorem beBytes_mem_lt (w n : Nat) : ∀ b ∈ beBytes w n, b < 256 := by
  induction w generalizing n with
  | zero => simp [beBytes]
  | succ w ih =>
    intro b hb
    simp only [beBytes, List.mem_append, List.mem_singleton] at hb
    rcases hb with hb | hb
    · exact ih _ b hb
    · omega

theorem beDecode_beBytes (w n : Nat) (h : n < 256 ^ w) :
    beDecode (beBytes w n) = n := by
  induction w generalizing n with
  | zero => simp [beBytes, beDecode]; omega
  | succ w ih =>
    rw [beBytes, beDecode_append_singleton, ih (n / 256) (by
      have : 256 ^ (w + 1) = 256 ^ w * 256 := by ring
      omega)]
    omega

theorem beDecode_lt (l : List Nat) (h : ∀ b ∈ l, b < 256) :
    beDecode l < 256 ^ l.length := by
  induction l using List.reverseRecOn with
  | nil => simp [beDecode]
  | append_singleton l b ih =>
    rw [beDecode_append_singleton]
    have hb : b < 256 := h b (by simp)
    have hl : beDecode l < 256 ^ l.length := ih fun x hx => h x (by simp [hx])
    have : 256 ^ (l ++ [b]).length = 256 ^ l.length * 256 := by
      simp [List.length_append]; ring
    omega

theorem beBytes_beDecode (l : List Nat) (h : ∀ b ∈ l, b < 256) :
    beBytes l.length (beDecode l) = l := by
  induction l using List.reverseRecOn with
  | nil => simp [beBytes, beDecode]
  | append_singleton l b ih =>
    have hb : b < 256 := h b (by simp)
    have hmem : ∀ x ∈ l, x < 256 := fun x hx => h x (by simp [hx])
    rw [beDecode_append_singleton]
    have hlen : (l ++ [b]).length = l.length + 1 := by simp
    rw [hlen, beBytes]
    have hdiv : (beDecode l * 256 + b) / 256 = beDecode l := by omega
    have hmod : (beDecode l * 256 + b) % 256 = b := by omega
    rw [hdiv, hmod, ih hmem]

theorem utf8Valid_cons_ascii {b : Nat} (hb : b ≤ 0x7F) (l : List Nat) :
    utf8Valid (b :: l) = utf8Valid l := by
  show utf8Run [] (b :: l) = utf8Run [] l
  rw [utf8Run]
  exact if_pos hb

theorem utf8Valid_of_ascii {l : List Nat} (h : ∀ b ∈ l, b ≤ 0x7F) :
    utf8Valid l = true := by
  induction l with
  | nil => rfl
  | cons b l ih =>
    rw [utf8Valid_cons_ascii (h b (by simp))]
    exact ih fun x hx => h x (by simp [hx])

theorem length_write (c : Cmd) :
    (Cmd.write c).length
      = HEADER_BYTES + c.key.length + (match c with | .set _ v => v.length | _ => 0) := by
  cases c <;> simp [Cmd.write, Cmd.key, length_beBytes, HEADER_BYTES,
    HEADER_KEY_BYTES, HEADER_VALUE_BYTES] <;> omega

theorem take_append_exact {α : Type} (l r : List α) {n : Nat} (h : l.length = n) :
    (l ++ r).take n = l := by
  subst h; simp

theorem drop_append_exact {α : Type} (l r : List α) {n : Nat} (h : l.length = n) :
    (l ++ r).drop n = r := by
  subst h; simp

theorem parse_header_append (k v : List Nat) (hk : k.length = 4) (hv : v.length = 8) :
    Cmd.parse_header (k ++ v) = (beDecode k, beDecode v) := by
  simp [Cmd.parse_header, HEADER_KEY_BYTES, HEADER_VALUE_BYTES,
    take_append_exact _ _ hk, drop_append_exact _ _ hk, List.take_of_length_le, hv.le]

theorem sentinel_lt : RM_VALUE_LEN < GET_VALUE_LEN ∧ GET_VALUE_LEN < U64_MOD := by
  constructor <;> simp [RM_VALUE_LEN, GET_VALUE_LEN, U64_MOD]

/-- Unfolding of the framer once a full 12-byte header is available. -/
theorem read_cmd_split (h12 tail : List Nat) (hh : h12.length = HEADER_BYTES) :
    Reader.read_cmd (h12 ++ tail)
      = (let hdr := Cmd.parse_header h12
         let total_len :=
           if hdr.2 = GET_VALUE_LEN ∨ hdr.2 = RM_VALUE_LEN then hdr.1
           else (hdr.1 + hdr.2) % U64_MOD
         let body := tail.take total_len
         match Cmd.parse_body hdr.1 hdr.2 body with
         | .ok c => ReadOutcome.ok c (HEADER_BYTES + body.length)
         | .error e => ReadOutcome.err e) := by
  rw [Reader.read_cmd]
  rw [take_append_exact _ _ hh, drop_append_exact _ _ hh]
  rw [if_neg (by simp [hh, HEADER_BYTES, HEADER_KEY_BYTES, HEADER_VALUE_BYTES]),
    if_neg (by simp [hh])]

/-- Round trip of the framer, with an arbitrary suffix after the record:
reading from a source that starts with the encoding of a representable
command yields exactly that command and consumes exactly its encoding. -/
theorem read_cmd_write (c : Cmd) (rest : List Nat) (hc : validCmd c = true) :
    Reader.read_cmd (Cmd.write c ++ rest) = .ok c (Cmd.write c).length := by
  cases c with
  | set k v =>
    simp only [validCmd, Bool.and_eq_true, decide_eq_true_eq] at hc
    obtain ⟨⟨⟨⟨hk32, hkutf⟩, hv3⟩, hsum⟩, hvutf⟩ := hc
    have hkmod : k.length % U32_MOD = k.length := Nat.mod_eq_of_lt hk32
    have hvmod : v.length % U64_MOD = v.length := Nat.mod_eq_of_lt (by
      simp only [U64_MOD] at hsum ⊢; omega)
    have hdr4 : (beBytes 4 (k.length % U32_MOD)).length = 4 := length_beBytes _ _
    have hdr8 : (beBytes 8 (v.length % U64_MOD)).length = 8 := length_beBytes _ _
    have hsplit : Cmd.write (.set k v) ++ rest
        = (beBytes 4 (k.length % U32_MOD) ++ beBytes 8 (v.length % U64_MOD))
            ++ (k ++ (v ++ rest)) := by
      simp [Cmd.write]
    rw [hsplit, read_cmd_split _ _ (by
      simp [HEADER_BYTES, HEADER_KEY_BYTES, HEADER_VALUE_BYTES, hdr4, hdr8])]
    simp only [parse_header_append _ _ hdr4 hdr8]
    rw [hkmod, hvmod] at *
    rw [beDecode_beBytes 4 k.length (by simpa [U32_MOD] using hk32),
      beDecode_beBytes 8 v.length (by simp only [U64_MOD] at hsum ⊢; omega)]
    have hnotget : ¬ (v.length = GET_VALUE_LEN ∨ v.length = RM_VALUE_LEN) := by
      simp only [GET_VALUE_LEN, RM_VALUE_LEN, U64_MOD] at hv3 ⊢
      omega
    rw [if_neg hnotget]
    have hsummod : (k.length + v.length) % U64_MOD = k.length + v.length :=
      Nat.mod_eq_of_lt hsum
    rw [hsummod]
    have hbody : (k ++ (v ++ rest)).take (k.length + v.length) = k ++ v := by
      rw [List.take_append_eq_append_take, List.take_of_length_le (by omega),
        Nat.add_sub_cancel_left, take_append_exact v rest rfl]
    rw [hbody]
    have hpb : Cmd.parse_body k.length v.length (k ++ v) = .ok (.set k v) := by
      rw [Cmd.parse_body]
      rw [if_neg (by simp)]
      simp only [take_append_exact k v rfl, drop_append_exact k v rfl, hkutf, if_true]
      rw [if_neg (by simp only [GET_VALUE_LEN, U64_MOD] at hv3 ⊢; omega),
        if_neg (by simp only [RM_VALUE_LEN, GET_VALUE_LEN, U64_MOD] at hv3 ⊢; omega),
        if_pos le_rfl]
      simp [hvutf]
    rw [hpb]
    simp only [length_write, Cmd.key, ReadOutcome.ok.injEq, List.length_append, true_and]
    omega
  | get k =>
    simp only [validCmd, Bool.and_eq_true, decide_eq_true_eq] at hc
    obtain ⟨hk32, hkutf⟩ := hc
    have hkmod : k.length % U32_MOD = k.length := Nat.mod_eq_of_lt hk32
    have hdr4 : (beBytes 4 (k.length % U32_MOD)).length = 4 := length_beBytes _ _
    have hdr8 : (beBytes 8 GET_VALUE_LEN).length = 8 := length_beBytes _ _
    have hsplit : Cmd.write (.get k) ++ rest
        = (beBytes 4 (k.length % U32_MOD) ++ beBytes 8 GET_VALUE_LEN) ++ (k ++ rest) := by
      simp [Cmd.write]
    rw [hsplit, read_cmd_split _ _ (by
      simp [HEADER_BYTES, HEADER_KEY_BYTES, HEADER_VALUE_BYTES, hdr4, hdr8])]
    simp only [parse_header_append _ _ hdr4 hdr8]
    rw [hkmod] at *
    rw [beDecode_beBytes 4 k.length (by simpa [U32_MOD] using hk32),
      beDecode_beBytes 8 GET_VALUE_LEN (by simp [GET_VALUE_LEN, U64_MOD])]
    rw [if_pos (Or.inl rfl)]
    rw [take_append_exact _ _ rfl]
    have hpb : Cmd.parse_body k.length GET_VALUE_LEN k = .ok (.get k) := by
      rw [Cmd.parse_body, if_neg (by simp)]
      simp [List.take_length, hkutf]
    rw [hpb]
    simp only [length_write, Cmd.key, ReadOutcome.ok.injEq, true_and]
    omega
  | rm k =>
    simp only [validCmd, Bool.and_eq_true, decide_eq_true_eq] at hc
    obtain ⟨hk32, hkutf⟩ := hc
    have hkmod : k.length % U32_MOD = k.length := Nat.mod_eq_of_lt hk32
    have hdr4 : (beBytes 4 (k.length % U32_MOD)).length = 4 := length_beBytes _ _
    have hdr8 : (beBytes 8 RM_VALUE_LEN).length = 8 := length_beBytes _ _
    have hsplit : Cmd.write (.rm k) ++ rest
        = (beBytes 4 (k.length % U32_MOD) ++ beBytes 8 RM_VALUE_LEN) ++ (k ++ rest) := by
      simp [Cmd.write]
    rw [hsplit, read_cmd_split _ _ (by
      simp [HEADER_BYTES, HEADER_KEY_BYTES, HEADER_VALUE_BYTES, hdr4, hdr8])]
    simp only [parse_header_append _ _ hdr4 hdr8]
    rw [hkmod] at *
    rw [beDecode_beBytes 4 k.length (by simpa [U32_MOD] using hk32),
      beDecode_beBytes 8 RM_VALUE_LEN (by simp [RM_VALUE_LEN, GET_VALUE_LEN, U64_MOD])]
    rw [if_pos (Or.inr rfl)]
    rw [take_append_exact _ _ rfl]
    have hpb : Cmd.parse_body k.length RM_VALUE_LEN k = .ok (.rm k) := by
      rw [Cmd.parse_body, if_neg (by simp)]
      simp [List.take_length, hkutf, GET_VALUE_LEN, RM_VALUE_LEN]
    rw [hpb]
    simp only [length_write, Cmd.key, ReadOutcome.ok.injEq, true_and]
    omega

/-- Unfolding of `Cmd.parse` once a full 12-byte header is available. -/
theorem parse_split (h12 tail : List Nat) (hh : h12.length = HEADER_BYTES) :
    Cmd.parse (h12 ++ tail)
      = Cmd.parse_body (Cmd.parse_header h12).1 (Cmd.parse_header h12).2 tail := by
  rw [Cmd.parse]
  rw [take_append_exact _ _ hh, drop_append_exact _ _ hh]
  rw [if_neg (by simp [hh])]

/-- Round trip of the codec itself (`Cmd::write` then header split plus
`Cmd::parse_body`), with an arbitrary suffix after the record. -/
theorem parse_write (c : Cmd) (rest : List Nat) (hc : validCmd c = true) :
    Cmd.parse (Cmd.write c ++ rest) = .ok c := by
  cases c with
  | set k v =>
    simp only [validCmd, Bool.and_eq_true, decide_eq_true_eq] at hc
    obtain ⟨⟨⟨⟨hk32, hkutf⟩, hv3⟩, hsum⟩, hvutf⟩ := hc
    have hkmod : k.length % U32_MOD = k.length := Nat.mod_eq_of_lt hk32
    have hvmod : v.length % U64_MOD = v.length := Nat.mod_eq_of_lt (by
      simp only [U64_MOD] at hsum ⊢; omega)
    have hdr4 : (beBytes 4 (k.length % U32_MOD)).length = 4 := length_beBytes _ _
    have hdr8 : (beBytes 8 (v.length % U64_MOD)).length = 8 := length_beBytes _ _
    have hsplit : Cmd.write (.set k v) ++ rest
        = (beBytes 4 (k.length % U32_MOD) ++ beBytes 8 (v.length % U64_MOD))
            ++ (k ++ (v ++ rest)) := by
      simp [Cmd.write]
    rw [hsplit, parse_split _ _ (by
      simp [HEADER_BYTES, HEADER_KEY_BYTES, HEADER_VALUE_BYTES, hdr4, hdr8])]
    simp only [parse_header_append _ _ hdr4 hdr8]
    rw [hkmod, hvmod] at *
    rw [beDecode_beBytes 4 k.length (by simpa [U32_MOD] using hk32),
      beDecode_beBytes 8 v.length (by simp only [U64_MOD] at hsum ⊢; omega)]
    rw [Cmd.parse_body]
    rw [if_neg (by simp)]
    simp only [take_append_exact k _ rfl, drop_append_exact k _ rfl, hkutf, if_true]
    rw [if_neg (by simp only [GET_VALUE_LEN, U64_MOD] at hv3 ⊢; omega),
      if_neg (by simp only [RM_VALUE_LEN, GET_VALUE_LEN, U64_MOD] at hv3 ⊢; omega),
      if_pos (by simp)]
    rw [take_append_exact v rest rfl]
    simp [hvutf]
  | get k =>
    simp only [validCmd, Bool.and_eq_true, decide_eq_true_eq] at hc
    obtain ⟨hk32, hkutf⟩ := hc
    have hkmod : k.length % U32_MOD = k.length := Nat.mod_eq_of_lt hk32
    have hdr4 : (beBytes 4 (k.length % U32_MOD)).length = 4 := length_beBytes _ _
    have hdr8 : (beBytes 8 GET_VALUE_LEN).length = 8 := length_beBytes _ _
    have hsplit : Cmd.write (.get k) ++ rest
        = (beBytes 4 (k.length % U32_MOD) ++ beBytes 8 GET_VALUE_LEN) ++ (k ++ rest) := by
      simp [Cmd.write]
    rw [hsplit, parse_split _ _ (by
      simp [HEADER_BYTES, HEADER_KEY_BYTES, HEADER_VALUE_BYTES, hdr4, hdr8])]
    simp only [parse_header_append _ _ hdr4 hdr8]
    rw [hkmod] at *
    rw [beDecode_beBytes 4 k.length (by simpa [U32_MOD] using hk32),
      beDecode_beBytes 8 GET_VALUE_LEN (by simp [GET_VALUE_LEN, U64_MOD])]
    rw [Cmd.parse_body]
    rw [if_neg (by simp)]
    simp [take_append_exact k rest rfl, hkutf]
  | rm k =>
    simp only [validCmd, Bool.and_eq_true, decide_eq_true_eq] at hc
    obtain ⟨hk32, hkutf⟩ := hc
    have hkmod : k.length % U32_MOD = k.length := Nat.mod_eq_of_lt hk32
    have hdr4 : (beBytes 4 (k.length % U32_MOD)).length = 4 := length_beBytes _ _
    have hdr8 : (beBytes 8 RM_VALUE_LEN).length = 8 := length_beBytes _ _
    have hsplit : Cmd.write (.rm k) ++ rest
        = (beBytes 4 (k.length % U32_MOD) ++ beBytes 8 RM_VALUE_LEN) ++ (k ++ rest) := by
      simp [Cmd.write]
    rw [hsplit, parse_split _ _ (by
      simp [HEADER_BYTES, HEADER_KEY_BYTES, HEADER_VALUE_BYTES, hdr4, hdr8])]
    simp only [parse_header_append _ _ hdr4 hdr8]
    rw [hkmod] at *
    rw [beDecode_beBytes 4 k.length (by simpa [U32_MOD] using hk32),
      beDecode_beBytes 8 RM_VALUE_LEN (by simp [RM_VALUE_LEN, GET_VALUE_LEN, U64_MOD])]
    rw [Cmd.parse_body]
    rw [if_neg (by simp)]
    simp [take_append_exact k rest rfl, hkutf, GET_VALUE_LEN, RM_VALUE_LEN]

theorem read_cmd_short (src : List Nat) (h : src.length < HEADER_BYTES) :
    Reader.read_cmd src = if src.length = 0 then .none else .crash := by
  rw [Reader.read_cmd]
  have h1 : (src.take HEADER_BYTES).length = src.length := by
    simp [List.length_take]; omega
  rw [h1]
  by_cases h0 : src.length = 0
  · simp [h0]
  · simp [h0, h]

theorem read_cmd_ok_bounds {src : List Nat} {c : Cmd} {n : Nat}
    (h : Reader.read_cmd src = .ok c n) :
    HEADER_BYTES ≤ n ∧ n ≤ src.length ∧ HEADER_BYTES ≤ src.length := by
  by_cases hs : src.length < HEADER_BYTES
  · rw [read_cmd_short src hs] at h
    split at h <;> simp at h
  · push_neg at hs
    have hhl : (src.take HEADER_BYTES).length = HEADER_BYTES := by
      rw [List.length_take]
      omega
    conv at h => rw [← List.take_append_drop HEADER_BYTES src]
    rw [read_cmd_split _ _ hhl] at h
    simp only [] at h
    split at h
    · rename_i c' heq
      rw [ReadOutcome.ok.injEq] at h
      obtain ⟨-, hn⟩ := h
      have hb : ∀ t : Nat, ((src.drop HEADER_BYTES).take t).length ≤ src.length - HEADER_BYTES := by
        intro t
        rw [List.length_take, List.length_drop]
        omega
      have hb2 := hb (if (Cmd.parse_header (src.take HEADER_BYTES)).2 = GET_VALUE_LEN
          ∨ (Cmd.parse_header (src.take HEADER_BYTES)).2 = RM_VALUE_LEN
        then (Cmd.parse_header (src.take HEADER_BYTES)).1
        else ((Cmd.parse_header (src.take HEADER_BYTES)).1
          + (Cmd.parse_header (src.take HEADER_BYTES)).2) % U64_MOD)
      omega
    · simp at h

theorem parse_body_sound {klen vlen : Nat} {body : List Nat} {c : Cmd}
    (h : Cmd.parse_body klen vlen body = .ok c) :
    klen ≤ body.length ∧ utf8Valid (body.take klen) = true ∧
      ((vlen = GET_VALUE_LEN ∧ c = .get (body.take klen))
       ∨ (vlen = RM_VALUE_LEN ∧ c = .rm (body.take klen))
       ∨ (vlen ≠ GET_VALUE_LEN ∧ vlen ≠ RM_VALUE_LEN
           ∧ klen + vlen ≤ body.length
           ∧ utf8Valid ((body.drop klen).take vlen) = true
           ∧ c = .set (body.take klen) ((body.drop klen).take vlen))) := by
  rw [Cmd.parse_body] at h
  split_ifs at h with h1 h2 h3 h4 h5 h6
  · rw [Except.ok.injEq] at h
    exact ⟨by omega, h2, Or.inl ⟨h3, h.symm⟩⟩
  · rw [Except.ok.injEq] at h
    exact ⟨by omega, h2, Or.inr (Or.inl ⟨h4, h.symm⟩)⟩
  · rw [Except.ok.injEq] at h
    refine ⟨by omega, h2, Or.inr (Or.inr ⟨h3, h4, ?_, h6, h.symm⟩)⟩
    rw [List.length_drop] at h5
    omega

theorem read_cmd_sound {src : List Nat} (hoct : ∀ b ∈ src, b < 256) {c : Cmd} {n : Nat}
    (h : Reader.read_cmd src = .ok c n) :
    validCmd c = true ∧ n = (Cmd.write c).length ∧ src.take n = Cmd.write c := by
  obtain ⟨-, -, hs⟩ := read_cmd_ok_bounds h
  have hhl : (src.take HEADER_BYTES).length = HEADER_BYTES := by
    rw [List.length_take]; omega
  conv at h => rw [← List.take_append_drop HEADER_BYTES src]
  rw [read_cmd_split _ _ hhl] at h
  have hl4 : ((src.take HEADER_BYTES).take HEADER_KEY_BYTES).length = HEADER_KEY_BYTES := by
    rw [List.length_take, hhl]; decide
  have hl8 : ((src.take HEADER_BYTES).drop HEADER_KEY_BYTES).length = HEADER_VALUE_BYTES := by
    rw [List.length_drop, hhl]; decide
  have htk8 : ((src.take HEADER_BYTES).drop HEADER_KEY_BYTES).take HEADER_VALUE_BYTES
      = (src.take HEADER_BYTES).drop HEADER_KEY_BYTES :=
    List.take_of_length_le (by rw [hl8])
  have hph : Cmd.parse_header (src.take HEADER_BYTES)
      = (beDecode ((src.take HEADER_BYTES).take HEADER_KEY_BYTES),
         beDecode ((src.take HEADER_BYTES).drop HEADER_KEY_BYTES)) := by
    rw [Cmd.parse_header, htk8]
  rw [hph] at h
  dsimp only [] at h
  set klen := beDecode ((src.take HEADER_BYTES).take HEADER_KEY_BYTES) with hK
  set vlen := beDecode ((src.take HEADER_BYTES).drop HEADER_KEY_BYTES) with hV
  have hoct4 : ∀ b ∈ (src.take HEADER_BYTES).take HEADER_KEY_BYTES, b < 256 :=
    fun b hb => hoct b (List.take_subset _ _ (List.take_subset _ _ hb))
  have hoct8 : ∀ b ∈ (src.take HEADER_BYTES).drop HEADER_KEY_BYTES, b < 256 :=
    fun b hb => hoct b (List.take_subset _ _ (List.drop_subset _ _ hb))
  have hklt : klen < U32_MOD := by
    have := beDecode_lt _ hoct4
    rw [hl4] at this
    simpa [U32_MOD, HEADER_KEY_BYTES] using this
  have hvlt : vlen < U64_MOD := by
    have := beDecode_lt _ hoct8
    rw [hl8] at this
    simpa [U64_MOD, HEADER_VALUE_BYTES] using this
  have hbe4 : beBytes 4 klen = (src.take HEADER_BYTES).take HEADER_KEY_BYTES := by
    rw [hK, show (4 : Nat) = ((src.take HEADER_BYTES).take HEADER_KEY_BYTES).length from by
      rw [hl4]; rfl]
    exact beBytes_beDecode _ hoct4
  have hbe8 : beBytes 8 vlen = (src.take HEADER_BYTES).drop HEADER_KEY_BYTES := by
    rw [hV, show (8 : Nat) = ((src.take HEADER_BYTES).drop HEADER_KEY_BYTES).length from by
      rw [hl8]; rfl]
    exact beBytes_beDecode _ hoct8
  have hhdr : beBytes 4 klen ++ beBytes 8 vlen = src.take HEADER_BYTES := by
    rw [hbe4, hbe8, List.take_append_drop]
  by_cases hsent : vlen = GET_VALUE_LEN ∨ vlen = RM_VALUE_LEN
  · rw [if_pos hsent] at h
    rcases hsplit : Cmd.parse_body klen vlen
        ((src.drop HEADER_BYTES).take klen) with msg' | c'
    · rw [hsplit] at h
      exact absurd h (by simp)
    rw [hsplit] at h
    dsimp only [] at h
    have hpb := hsplit
    rw [ReadOutcome.ok.injEq] at h
    obtain ⟨hcc, hn⟩ := h
    subst hcc
    obtain ⟨hkle, hkutf, hcase⟩ := parse_body_sound hpb
    have hble : ((src.drop HEADER_BYTES).take klen).length ≤ klen := by
      rw [List.length_take]; omega
    have hbl : ((src.drop HEADER_BYTES).take klen).length = klen := le_antisymm hble hkle
    have hbfull : ((src.drop HEADER_BYTES).take klen).take klen
        = (src.drop HEADER_BYTES).take klen :=
      List.take_of_length_le (by rw [hbl])
    rw [hbfull] at hkutf
    have hmodk : ((src.drop HEADER_BYTES).take klen).length % U32_MOD = klen := by
      rw [hbl]; exact Nat.mod_eq_of_lt hklt
    have htaken : src.take (HEADER_BYTES + klen)
        = src.take HEADER_BYTES ++ (src.drop HEADER_BYTES).take klen := List.take_add ..
    rcases hcase with ⟨hvget, hcget⟩ | ⟨hvrm, hcrm⟩ | ⟨hng, hnr, -⟩
    · rw [hbfull] at hcget
      subst hcget
      refine ⟨by simp [validCmd, hkutf, hbl, hklt], ?_, ?_⟩
      · rw [← hn, length_write]
        simp [Cmd.key, hbl]
      · have hbe8g : beBytes 8 GET_VALUE_LEN
            = (src.take HEADER_BYTES).drop HEADER_KEY_BYTES := by
          rw [← hvget]; exact hbe8
        rw [← hn, Cmd.write, hmodk, hbe4, hbe8g, List.take_append_drop, hbl, htaken]
    · rw [hbfull] at hcrm
      subst hcrm
      refine ⟨by simp [validCmd, hkutf, hbl, hklt], ?_, ?_⟩
      · rw [← hn, length_write]
        simp [Cmd.key, hbl]
      · have hbe8r : beBytes 8 RM_VALUE_LEN
            = (src.take HEADER_BYTES).drop HEADER_KEY_BYTES := by
          rw [← hvrm]; exact hbe8
        rw [← hn, Cmd.write, hmodk, hbe4, hbe8r, List.take_append_drop, hbl, htaken]
    · exact absurd hsent (by tauto)
  · rw [if_neg hsent] at h
    push_neg at hsent
    obtain ⟨hng, hnr⟩ := hsent
    rcases hsplit : Cmd.parse_body klen vlen
        ((src.drop HEADER_BYTES).take ((klen + vlen) % U64_MOD)) with msg' | c'
    · rw [hsplit] at h
      exact absurd h (by simp)
    rw [hsplit] at h
    dsimp only [] at h
    have hpb := hsplit
    rw [ReadOutcome.ok.injEq] at h
    obtain ⟨hcc, hn⟩ := h
    subst hcc
    obtain ⟨hkle, hkutf, hcase⟩ := parse_body_sound hpb
    rcases hcase with ⟨hvget, -⟩ | ⟨hvrm, -⟩ | ⟨-, -, hkvle, hvutf, hcset⟩
    · exact absurd hvget hng
    · exact absurd hvrm hnr
    · -- the Set case; first rule out a wrapped total length
      have hble : ((src.drop HEADER_BYTES).take ((klen + vlen) % U64_MOD)).length
          ≤ (klen + vlen) % U64_MOD := by
        rw [List.length_take]; omega
      have hmodle : (klen + vlen) % U64_MOD ≤ klen + vlen := Nat.mod_le _ _
      have hnowrap : klen + vlen < U64_MOD := by
        by_contra hge
        push_neg at hge
        have hlt : (klen + vlen) % U64_MOD < U64_MOD :=
          Nat.mod_lt _ (by simp [U64_MOD])
        omega
      have hmodeq : (klen + vlen) % U64_MOD = klen + vlen := Nat.mod_eq_of_lt hnowrap
      rw [hmodeq] at hble hkvle hkutf hvutf hcset hn hkle
      have hbl : ((src.drop HEADER_BYTES).take (klen + vlen)).length = klen + vlen :=
        le_antisymm hble hkvle
      have hkeylen : (((src.drop HEADER_BYTES).take (klen + vlen)).take klen).length = klen := by
        rw [List.length_take, hbl]; omega
      have hvallen : (((src.drop HEADER_BYTES).take (klen + vlen)).drop klen).length = vlen := by
        rw [List.length_drop, hbl]; omega
      have hvfull : (((src.drop HEADER_BYTES).take (klen + vlen)).drop klen).take vlen
          = ((src.drop HEADER_BYTES).take (klen + vlen)).drop klen :=
        List.take_of_length_le (by rw [hvallen])
      rw [hvfull] at hvutf hcset
      subst hcset
      have hv3 : vlen ≤ U64_MOD - 3 := by
        simp only [GET_VALUE_LEN, RM_VALUE_LEN, U64_MOD] at hng hnr hvlt ⊢
        omega
      refine ⟨?_, ?_, ?_⟩
      · simp [validCmd, hkutf, hvutf, hkeylen, hvallen, hklt, hv3]
        simp only [U64_MOD] at hnowrap ⊢
        omega
      · rw [← hn, length_write]
        simp [Cmd.key, hkeylen, hvallen, hbl]
        omega
      · rw [← hn, Cmd.write, hkeylen, hvallen, Nat.mod_eq_of_lt hklt,
          Nat.mod_eq_of_lt (show vlen < U64_MOD by omega), hbe4, hbe8,
          List.take_append_drop, List.append_assoc, List.take_append_drop, hbl,
          List.take_add]

/-! ## Association-list (index) lemmas -/

theorem insertKey_fst (m : IndexMap) (k : List Nat) (e : Index) :
    (insertKey m k e).1 = lookupKey m k := by
  induction m with
  | nil => simp [insertKey, lookupKey]
  | cons p rest ih =>
    obtain ⟨k', e'⟩ := p
    by_cases hk : k' = k
    · simp [insertKey, lookupKey, hk]
    · simp [insertKey, lookupKey, hk, ih]

theorem lookupKey_insertKey (m : IndexMap) (k : List Nat) (e : Index) (q : List Nat) :
    lookupKey (insertKey m k e).2 q = if q = k then some e else lookupKey m q := by
  induction m with
  | nil =>
    by_cases hq : q = k
    · simp [insertKey, lookupKey, hq]
    · simp [insertKey, lookupKey, hq, Ne.symm hq]
  | cons p rest ih =>
    obtain ⟨k', e'⟩ := p
    by_cases hk : k' = k
    · subst hk
      by_cases hq : q = k'
      · simp [insertKey, lookupKey, hq]
      · simp [insertKey, lookupKey, hq, Ne.symm hq]
    · by_cases hq : q = k'
      · subst hq
        simp [insertKey, lookupKey, hk, Ne.symm hk]
      · simp [insertKey, lookupKey, hk, hq, ih, Ne.symm hq]

theorem insertKey_map_fst (m : IndexMap) (k : List Nat) (e : Index) :
    (insertKey m k e).2.map Prod.fst
      = if lookupKey m k = none then m.map Prod.fst ++ [k] else m.map Prod.fst := by
  induction m with
  | nil => simp [insertKey, lookupKey]
  | cons p rest ih =>
    obtain ⟨k', e'⟩ := p
    by_cases hk : k' = k
    · simp [insertKey, lookupKey, hk]
    · simp only [insertKey, lookupKey, hk, if_neg hk]
      by_cases hl : lookupKey rest k = none <;> simp [hl, ih]

theorem lookupKey_eq_none_iff (m : IndexMap) (k : List Nat) :
    lookupKey m k = none ↔ k ∉ m.map Prod.fst := by
  induction m with
  | nil => simp [lookupKey]
  | cons p rest ih =>
    obtain ⟨k', e'⟩ := p
    by_cases hk : k' = k
    · subst hk
      simp [lookupKey]
    · simp only [lookupKey, if_neg hk, List.map_cons, List.mem_cons, ih]
      constructor
      · intro hnone hmem
        rcases hmem with he | hm
        · exact hk he.symm
        · exact hnone hm
      · intro hcon hm
        exact hcon (Or.inr hm)

theorem nodup_insertKey (m : IndexMap) (k : List Nat) (e : Index)
    (h : (m.map Prod.fst).Nodup) : ((insertKey m k e).2.map Prod.fst).Nodup := by
  rw [insertKey_map_fst]
  split
  · rename_i hnone
    have hk := (lookupKey_eq_none_iff m k).mp hnone
    rw [List.nodup_append]
    exact ⟨h, List.nodup_singleton _, by
      intro a ha hmem
      rw [List.mem_singleton] at hmem
      subst hmem
      exact hk ha⟩
  · exact h

theorem removeKey_fst (m : IndexMap) (k : List Nat) :
    (removeKey m k).1 = lookupKey m k := by
  induction m with
  | nil => simp [removeKey, lookupKey]
  | cons p rest ih =>
    obtain ⟨k', e'⟩ := p
    by_cases hk : k' = k
    · simp [removeKey, lookupKey, hk]
    · simp [removeKey, lookupKey, hk, ih]

theorem lookupKey_removeKey_ne (m : IndexMap) (k q : List Nat) (hq : q ≠ k) :
    lookupKey (removeKey m k).2 q = lookupKey m q := by
  induction m with
  | nil => simp [removeKey]
  | cons p rest ih =>
    obtain ⟨k', e'⟩ := p
    by_cases hk : k' = k
    · subst hk
      simp [removeKey, lookupKey, Ne.symm hq]
    · by_cases hqk : k' = q
      · subst hqk
        simp [removeKey, lookupKey, hk]
      · simp [removeKey, lookupKey, hk, hqk, ih]

theorem removeKey_map_fst_sublist (m : IndexMap) (k : List Nat) :
    ((removeKey m k).2.map Prod.fst).Sublist (m.map Prod.fst) := by
  induction m with
  | nil => simp [removeKey]
  | cons p rest ih =>
    obtain ⟨k', e'⟩ := p
    by_cases hk : k' = k
    · simp only [removeKey, if_pos hk, List.map_cons]
      exact List.sublist_cons_self _ _
    · simp only [removeKey, if_neg hk, List.map_cons]
      exact ih.cons₂ k'

theorem nodup_removeKey (m : IndexMap) (k : List Nat)
    (h : (m.map Prod.fst).Nodup) : ((removeKey m k).2.map Prod.fst).Nodup :=
  h.sublist (removeKey_map_fst_sublist m k)

theorem lookupKey_removeKey_self (m : IndexMap) (k : List Nat)
    (h : (m.map Prod.fst).Nodup) : lookupKey (removeKey m k).2 k = none := by
  induction m with
  | nil => simp [removeKey, lookupKey]
  | cons p rest ih =>
    obtain ⟨k', e'⟩ := p
    simp only [List.map_cons, List.nodup_cons] at h
    by_cases hk : k' = k
    · subst hk
      simp only [removeKey, if_pos rfl]
      rw [lookupKey_eq_none_iff]
      exact h.1
    · simp only [removeKey, if_neg hk, lookupKey, if_neg hk]
      exact ih h.2

theorem relabelActive_map_fst (m : IndexMap) (slot : Nat) :
    (relabelActive m slot).map Prod.fst = m.map Prod.fst := by
  induction m with
  | nil => rfl
  | cons p rest ih =>
    obtain ⟨k', e'⟩ := p
    rw [relabelActive]
    by_cases hi : e'.file_idx = ACTIVE_FILE_IDX
    · rw [if_pos hi]
      simp only [List.map_cons, ih]
    · rw [if_neg hi]
      simp only [List.map_cons, ih]

theorem lookupKey_relabelActive (m : IndexMap) (slot : Nat) (q : List Nat) :
    lookupKey (relabelActive m slot) q
      = (lookupKey m q).map fun e =>
          if e.file_idx = ACTIVE_FILE_IDX then Index.mk slot e.file_offset else e := by
  induction m with
  | nil => simp [relabelActive, lookupKey]
  | cons p rest ih =>
    obtain ⟨k', e'⟩ := p
    rw [relabelActive]
    by_cases hi : e'.file_idx = ACTIVE_FILE_IDX
    · rw [if_pos hi]
      by_cases hq : k' = q
      · subst hq
        simp [lookupKey, hi]
      · simp [lookupKey, hq, ih]
    · rw [if_neg hi]
      by_cases hq : k' = q
      · subst hq
        simp [lookupKey, hi]
      · simp [lookupKey, hq, ih]

theorem lookupKey_eq_some_of_mem (m : IndexMap) (k : List Nat) (e : Index)
    (h : (m.map Prod.fst).Nodup) (hm : (k, e) ∈ m) : lookupKey m k = some e := by
  induction m with
  | nil => simp at hm
  | cons p rest ih =>
    obtain ⟨k', e'⟩ := p
    simp only [List.map_cons, List.nodup_cons] at h
    rcases List.mem_cons.mp hm with heq | hm'
    · cases heq
      rw [lookupKey, if_pos rfl]
    · by_cases hk : k' = k
      · subst hk
        exact absurd (List.mem_map.mpr ⟨(k', e), hm', rfl⟩) h.1
      · rw [lookupKey, if_neg hk]
        exact ih h.2 hm'

theorem mem_of_lookupKey_eq_some (m : IndexMap) (k : List Nat) (e : Index)
    (h : lookupKey m k = some e) : (k, e) ∈ m := by
  induction m with
  | nil => simp [lookupKey] at h
  | cons p rest ih =>
    obtain ⟨k', e'⟩ := p
    by_cases hk : k' = k
    · subst hk
      rw [lookupKey, if_pos rfl, Option.some.injEq] at h
      subst h
      exact List.mem_cons_self _ _
    · rw [lookupKey, if_neg hk] at h
      exact List.mem_cons_of_mem _ (ih h)

/-! ## Record-location lemmas -/

theorem startsAt_append {content : List Nat} {off : Nat} {pre : List Nat}
    (h : startsAt content off pre) (t : List Nat) : startsAt (content ++ t) off pre := by
  unfold startsAt at h ⊢
  have hlen : pre.length ≤ (content.drop off).length := by
    have := congrArg List.length h
    rw [List.length_take] at this
    omega
  rw [List.drop_append_eq_append_drop, List.take_append_eq_append_take]
  have h0 : pre.length - (content.drop off).length = 0 := by omega
  rw [h0]
  simp [h]

theorem startsAt_append_self (content pre : List Nat) :
    startsAt (content ++ pre) content.length pre := by
  unfold startsAt
  rw [drop_append_exact _ _ rfl]
  exact List.take_length pre

theorem read_cmd_of_startsAt {content : List Nat} {off : Nat} {c : Cmd}
    (hc : validCmd c = true) (h : startsAt content off (Cmd.write c)) :
    Reader.read_cmd (content.drop off) = .ok c (Cmd.write c).length := by
  unfold startsAt at h
  have hsplit : content.drop off
      = Cmd.write c ++ (content.drop off).drop (Cmd.write c).length := by
    conv_lhs => rw [← List.take_append_drop (Cmd.write c).length (content.drop off)]
    rw [h]
  rw [hsplit, read_cmd_write c _ hc]

theorem goodIndex_congr {s : KvStore} {A B : List Nat → Option Cmd}
    (hg : GoodIndex s A) (hAB : ∀ q, A q = B q) : GoodIndex s B where
  nodup := hg.nodup
  lookup_none := fun k => (hAB k) ▸ hg.lookup_none k
  resolve := fun k e h => by
    obtain ⟨c, hc, hv, hk, he⟩ := hg.resolve k e h
    exact ⟨c, (hAB k) ▸ hc, hv, hk, he⟩

/-! ## Correctness of `get` under the index invariant -/

theorem get_good_none {s : KvStore} {A : List Nat → Option Cmd}
    (hg : GoodIndex s A) {k : List Nat} (hA : A k = none) :
    KvStore.get s k = .ok none := by
  have hl : lookupKey s.index k = none := (hg.lookup_none k).mpr hA
  rw [KvStore.get, hl]

theorem get_good_set {s : KvStore} {A : List Nat → Option Cmd} {k v : List Nat}
    (hg : GoodIndex s A) (hA : A k = some (.set k v)) :
    KvStore.get s k = .ok (some v) := by
  obtain ⟨e, he⟩ : ∃ e, lookupKey s.index k = some e := by
    cases hl : lookupKey s.index k with
    | none =>
      rw [(hg.lookup_none k).mp hl] at hA
      exact absurd hA (by simp)
    | some e => exact ⟨e, rfl⟩
  obtain ⟨c, hc, hv, hkey, content, hfc, hst⟩ := hg.resolve k e he
  rw [hA] at hc
  rw [Option.some.injEq] at hc
  subst hc
  simp only [KvStore.get, he, hfc, read_cmd_of_startsAt hv hst]

/-! ## Compaction -/

theorem forall₂_mem_right {α β : Type} {R : α → β → Prop} {l : List α} {l' : List β}
    (h : List.Forall₂ R l l') {b : β} (hb : b ∈ l') : ∃ a ∈ l, R a b := by
  induction h with
  | nil => simp at hb
  | cons hR hrest ih =>
    rcases List.mem_cons.mp hb with rfl | hb'
    · exact ⟨_, List.mem_cons_self _ _, hR⟩
    · obtain ⟨a, ha, hab⟩ := ih hb'
      exact ⟨a, List.mem_cons_of_mem _ ha, hab⟩

theorem forall₂_key_map_fst {l l' : IndexMap}
    (h : List.Forall₂ (fun p p' : List Nat × Index => p.1 = p'.1) l l') :
    l.map Prod.fst = l'.map Prod.fst := by
  induction h with
  | nil => rfl
  | cons hR hrest ih => simp [hR, ih]

/-- What one run of the compaction loop does to the index entries: entries on
the active file pass through unchanged; every other entry is repointed at
slot 0, at an offset of the grown compacted file where its (unchanged)
record now starts. -/
theorem compactify_go_spec (files : List (List Nat)) (A : List Nat → Option Cmd) :
    ∀ (entries : IndexMap) (comp : List Nat),
      (∀ p ∈ entries, ∃ c, A p.1 = some c ∧ validCmd c = true ∧ c.key = p.1 ∧
        (p.2.file_idx = ACTIVE_FILE_IDX
         ∨ ∃ content, files[p.2.file_idx]? = some content
             ∧ startsAt content p.2.file_offset (Cmd.write c))) →
      ∃ entries' comp',
        compactify_go files entries comp = .ok (entries', comp')
        ∧ (∃ ext, comp' = comp ++ ext)
        ∧ List.Forall₂ (fun p p' : List Nat × Index =>
            p.1 = p'.1
            ∧ ((p.2.file_idx = ACTIVE_FILE_IDX ∧ p' = p)
               ∨ (p.2.file_idx ≠ ACTIVE_FILE_IDX ∧ ∃ c, A p.1 = some c
                   ∧ validCmd c = true ∧ c.key = p.1
                   ∧ p'.2.file_idx = 0
                   ∧ startsAt comp' p'.2.file_offset (Cmd.write c)))) entries entries' := by
  intro entries
  induction entries with
  | nil =>
    intro comp _
    exact ⟨[], comp, by rw [compactify_go], ⟨[], by simp⟩, List.Forall₂.nil⟩
  | cons p rest ih =>
    intro comp h
    obtain ⟨k, e⟩ := p
    obtain ⟨c, hAc, hvc, hkc, hloc⟩ := h (k, e) (List.mem_cons_self _ _)
    by_cases hact : e.file_idx = ACTIVE_FILE_IDX
    · obtain ⟨entries', comp', hgo, ⟨ext, hext⟩, hrel⟩ :=
        ih comp (fun q hq => h q (List.mem_cons_of_mem _ hq))
      refine ⟨(k, e) :: entries', comp', ?_, ⟨ext, hext⟩, ?_⟩
      · rw [compactify_go, if_pos hact]
        simp only [hgo]
      · exact List.Forall₂.cons ⟨rfl, Or.inl ⟨hact, rfl⟩⟩ hrel
    · rcases hloc with h' | ⟨content, hfile, hst⟩
      · exact absurd h' hact
      obtain ⟨entries', comp', hgo, ⟨ext, hext⟩, hrel⟩ :=
        ih (comp ++ Cmd.write c) (fun q hq => h q (List.mem_cons_of_mem _ hq))
      refine ⟨(k, Index.mk 0 comp.length) :: entries', comp', ?_,
        ⟨Cmd.write c ++ ext, by rw [hext, List.append_assoc]⟩, ?_⟩
      · rw [compactify_go, if_neg hact]
        simp only [hfile, read_cmd_of_startsAt hvc hst, hgo]
      · refine List.Forall₂.cons ⟨rfl, Or.inr ⟨hact, c, hAc, hvc, hkc, rfl, ?_⟩⟩ hrel
        rw [hext]
        exact startsAt_append (startsAt_append_self comp (Cmd.write c)) ext

/-- `KvStore::compactify` succeeds from any store whose index satisfies the
invariant; afterwards the invariant still holds, exactly one immutable file
remains, the dead-record counter is 0, and the active file and policy are
untouched. -/
theorem compactify_good {s : KvStore} {A : List Nat → Option Cmd} (hg : GoodIndex s A) :
    ∃ s', KvStore.compactify s = .ok s'
      ∧ GoodIndex s' A
      ∧ s'.active_file = s.active_file
      ∧ s'.immutable_files.length = 1
      ∧ s'.dead_data_count = 0
      ∧ s'.compaction_policy = s.compaction_policy
      ∧ List.Forall₂ (fun p p' : List Nat × Index =>
          p.1 = p'.1
          ∧ ((p.2.file_idx = ACTIVE_FILE_IDX ∧ p' = p)
             ∨ (p.2.file_idx ≠ ACTIVE_FILE_IDX ∧ p'.2.file_idx = 0
                 ∧ ∃ c, validCmd c = true ∧ c.key = p.1
                     ∧ startsAt s'.immutable_files.head! p'.2.file_offset (Cmd.write c))))
          s.index s'.index := by
  have hents : ∀ p ∈ s.index, ∃ c, A p.1 = some c ∧ validCmd c = true ∧ c.key = p.1 ∧
      (p.2.file_idx = ACTIVE_FILE_IDX
       ∨ ∃ content, s.immutable_files[p.2.file_idx]? = some content
           ∧ startsAt content p.2.file_offset (Cmd.write c)) := by
    intro p hp
    have hlk := lookupKey_eq_some_of_mem _ _ _ hg.nodup hp
    obtain ⟨c, hAc, hv, hk, content, hfc, hst⟩ := hg.resolve _ _ hlk
    refine ⟨c, hAc, hv, hk, ?_⟩
    by_cases hact : p.2.file_idx = ACTIVE_FILE_IDX
    · exact Or.inl hact
    · right
      rw [fileContent, if_neg hact] at hfc
      exact ⟨content, hfc, hst⟩
  obtain ⟨entries', comp', hgo, ⟨ext, hext⟩, hrel⟩ :=
    compactify_go_spec s.immutable_files A s.index [] hents
  have hkeys : s.index.map Prod.fst = entries'.map Prod.fst :=
    forall₂_key_map_fst (hrel.imp fun a b h => h.1)
  refine ⟨{ s with immutable_files := [comp'], index := entries', dead_data_count := 0 },
    ?_, ?_, rfl, rfl, rfl, rfl, ?_⟩
  · rw [KvStore.compactify]
    simp only [hgo]
  · constructor
    · rw [← hkeys]
      exact hg.nodup
    · intro q
      rw [lookupKey_eq_none_iff, ← hkeys, ← lookupKey_eq_none_iff]
      exact hg.lookup_none q
    · intro q e' hlk'
      have hmem' := mem_of_lookupKey_eq_some _ _ _ hlk'
      obtain ⟨p, hpmem, hR⟩ := forall₂_mem_right hrel hmem'
      obtain ⟨hk1, hcase⟩ := hR
      rcases hcase with ⟨hact, hpe⟩ | ⟨hnact, c, hAc, hv, hk, hidx0, hst⟩
      · -- entry on the active file: unchanged, and the active file is unchanged
        have hpq : p = (q, e') := hpe.symm
        subst hpq
        have hlkold := lookupKey_eq_some_of_mem _ _ _ hg.nodup hpmem
        obtain ⟨c, hAc, hv, hk, content, hfc, hstold⟩ := hg.resolve _ _ hlkold
        refine ⟨c, hAc, hv, hk, content, ?_, hstold⟩
        rw [fileContent, if_pos hact] at hfc
        rw [fileContent, if_pos hact]
        exact hfc
      · have hq : p.1 = q := hk1
        rw [hq] at hAc hk
        have hidx : e'.file_idx = 0 := hidx0
        have hstt : startsAt comp' e'.file_offset (Cmd.write c) := hst
        refine ⟨c, hAc, hv, hk, comp', ?_, hstt⟩
        rw [fileContent, hidx, if_neg (by simp [ACTIVE_FILE_IDX])]
        simp
  · -- the detailed entry relation, with the compacted file named explicitly
    refine hrel.imp fun p p' h => ⟨h.1, ?_⟩
    rcases h.2 with h' | ⟨hnact, c, _, hv, hk, hidx0, hst⟩
    · exact Or.inl h'
    · exact Or.inr ⟨hnact, hidx0, c, hv, hk, by simpa using hst⟩

/-! ## Preservation of the index invariant by `write_cmd` -/

theorem goodIndex_insert_active {s : KvStore} {A : List Nat → Option Cmd} {c : Cmd}
    (hg : GoodIndex s A) (hc : validCmd c = true) (d : Nat) :
    GoodIndex
      { s with
        active_file := s.active_file ++ Cmd.write c,
        index := (insertKey s.index c.key (Index.mk ACTIVE_FILE_IDX s.active_file.length)).2,
        dead_data_count := d }
      (fun q => if q = c.key then some c else A q) := by
  constructor
  · exact nodup_insertKey _ _ _ hg.nodup
  · intro q
    rw [lookupKey_insertKey]
    by_cases hq : q = c.key
    · simp [hq]
    · simp only [if_neg hq]
      exact hg.lookup_none q
  · intro q e hlk
    rw [lookupKey_insertKey] at hlk
    by_cases hq : q = c.key
    · rw [if_pos hq, Option.some.injEq] at hlk
      subst hlk
      subst hq
      refine ⟨c, by simp, hc, rfl, s.active_file ++ Cmd.write c, ?_, ?_⟩
      · rw [fileContent, if_pos rfl]
      · exact startsAt_append_self _ _
    · rw [if_neg hq] at hlk
      obtain ⟨c', hAc', hv', hk', content, hfc, hst⟩ := hg.resolve q e hlk
      refine ⟨c', by simp [hq, hAc'], hv', hk', ?_⟩
      by_cases hact : e.file_idx = ACTIVE_FILE_IDX
      · rw [fileContent, if_pos hact] at hfc
        rw [Option.some.injEq] at hfc
        subst hfc
        refine ⟨s.active_file ++ Cmd.write c, ?_, startsAt_append hst _⟩
        rw [fileContent, if_pos hact]
      · rw [fileContent, if_neg hact] at hfc
        refine ⟨content, ?_, hst⟩
        rw [fileContent, if_neg hact]
        exact hfc

theorem goodIndex_roll {t : KvStore} {B : List Nat → Option Cmd}
    (hg : GoodIndex t B) (hlen : t.immutable_files.length ≠ ACTIVE_FILE_IDX) (d : Nat) :
    GoodIndex
      { t with
        active_file := [],
        immutable_files := t.immutable_files ++ [t.active_file],
        index := relabelActive t.index t.immutable_files.length,
        dead_data_count := d }
      B := by
  constructor
  · rw [relabelActive_map_fst]
    exact hg.nodup
  · intro q
    rw [lookupKey_relabelActive]
    rw [Option.map_eq_none']
    exact hg.lookup_none q
  · intro q e' hlk
    rw [lookupKey_relabelActive, Option.map_eq_some'] at hlk
    obtain ⟨e, hlk0, he'⟩ := hlk
    obtain ⟨c, hAc, hv, hk, content, hfc, hst⟩ := hg.resolve q e hlk0
    refine ⟨c, hAc, hv, hk, ?_⟩
    by_cases hact : e.file_idx = ACTIVE_FILE_IDX
    · rw [if_pos hact] at he'
      subst he'
      rw [fileContent, if_pos hact, Option.some.injEq] at hfc
      subst hfc
      refine ⟨t.active_file, ?_, hst⟩
      rw [fileContent]
      rw [if_neg hlen]
      simp
    · rw [if_neg hact] at he'
      subst he'
      rw [fileContent, if_neg hact] at hfc
      refine ⟨content, ?_, hst⟩
      have hidx : e.file_idx < t.immutable_files.length := by
        by_contra hge
        push_neg at hge
        rw [List.getElem?_eq_none hge] at hfc
        exact Option.noConfusion hfc
      rw [fileContent, if_neg hact]
      show (t.immutable_files ++ [t.active_file])[e.file_idx]? = some content
      rw [List.getElem?_append, if_pos hidx]
      exact hfc

/-- `write_cmd` from a store satisfying the index invariant succeeds and
re-establishes the invariant with the written record now assigned to its
key.  The immutable-file count grows by at most one (and the length bound
keeps the new slot distinct from the `usize::MAX` sentinel, as a Rust `Vec`
always is). -/
theorem write_cmd_good {s : KvStore} {A : List Nat → Option Cmd} {c : Cmd}
    (hg : GoodIndex s A) (hc : validCmd c = true)
    (hcap : s.immutable_files.length ≠ ACTIVE_FILE_IDX) :
    ∃ s', KvStore.write_cmd s c = .ok s'
      ∧ GoodIndex s' (fun q => if q = c.key then some c else A q)
      ∧ s'.immutable_files.length ≤ s.immutable_files.length + 1
      ∧ s'.active_file.length ≤ s.active_file.length + (Cmd.write c).length
      ∧ s'.compaction_policy = s.compaction_policy := by
  rw [KvStore.write_cmd]
  by_cases hroll : FILE_SIZE_LIMIT < s.active_file.length
  · rw [if_pos hroll]
    set s1 := { s with
      active_file := ([] : List Nat),
      immutable_files := s.immutable_files ++ [s.active_file ++ Cmd.write c],
      index := relabelActive
        (insertKey s.index c.key (Index.mk ACTIVE_FILE_IDX s.active_file.length)).2
        s.immutable_files.length,
      dead_data_count :=
        match (insertKey s.index c.key (Index.mk ACTIVE_FILE_IDX s.active_file.length)).1 with
        | some previous_value =>
          if previous_value.file_idx ≠ ACTIVE_FILE_IDX then s.dead_data_count + 1
          else s.dead_data_count
        | none => s.dead_data_count } with hs1
    have hg1 : GoodIndex s1 (fun q => if q = c.key then some c else A q) := by
      rw [hs1]
      exact goodIndex_roll (goodIndex_insert_active hg hc s.dead_data_count) hcap _
    have himm : s1.immutable_files.length = s.immutable_files.length + 1 := by
      rw [hs1]
      simp
    have hactf : s1.active_file = [] := by rw [hs1]
    have hpolf : s1.compaction_policy = s.compaction_policy := by rw [hs1]
    by_cases hpol : s1.compaction_policy s1.immutable_files.length s1.dead_data_count = true
    · rw [if_pos hpol]
      obtain ⟨s', hok, hgood, hact', himm', hdead', hpol', -⟩ := compactify_good hg1
      refine ⟨s', hok, hgood, by omega, ?_, by rw [hpol', hpolf]⟩
      rw [hact', hactf]
      simp
    · rw [if_neg hpol]
      refine ⟨s1, rfl, hg1, by omega, ?_, hpolf⟩
      rw [hactf]
      simp
  · rw [if_neg hroll]
    set s1 := { s with
      active_file := s.active_file ++ Cmd.write c,
      index := (insertKey s.index c.key (Index.mk ACTIVE_FILE_IDX s.active_file.length)).2,
      dead_data_count :=
        match (insertKey s.index c.key (Index.mk ACTIVE_FILE_IDX s.active_file.length)).1 with
        | some previous_value =>
          if previous_value.file_idx ≠ ACTIVE_FILE_IDX then s.dead_data_count + 1
          else s.dead_data_count
        | none => s.dead_data_count } with hs1
    have hg1 : GoodIndex s1 (fun q => if q = c.key then some c else A q) := by
      rw [hs1]
      exact goodIndex_insert_active hg hc _
    have himm : s1.immutable_files.length = s.immutable_files.length := by rw [hs1]
    have hactf : s1.active_file = s.active_file ++ Cmd.write c := by rw [hs1]
    have hpolf : s1.compaction_policy = s.compaction_policy := by rw [hs1]
    by_cases hpol : s1.compaction_policy s1.immutable_files.length s1.dead_data_count = true
    · rw [if_pos hpol]
      obtain ⟨s', hok, hgood, hact', himm', hdead', hpol', -⟩ := compactify_good hg1
      refine ⟨s', hok, hgood, by omega, ?_, by rw [hpol', hpolf]⟩
      rw [hact', hactf]
      simp
    · rw [if_neg hpol]
      refine ⟨s1, rfl, hg1, by omega, ?_, hpolf⟩
      rw [hactf]
      simp

theorem goodIndex_remove {s : KvStore} {A : List Nat → Option Cmd}
    (hg : GoodIndex s A) (k : List Nat) :
    GoodIndex { s with index := (removeKey s.index k).2 }
      (fun q => if q = k then none else A q) := by
  constructor
  · exact nodup_removeKey _ _ hg.nodup
  · intro q
    by_cases hq : q = k
    · subst hq
      simp [lookupKey_removeKey_self _ _ hg.nodup]
    · rw [lookupKey_removeKey_ne _ _ _ hq, if_neg hq]
      exact hg.lookup_none q
  · intro q e hlk
    by_cases hq : q = k
    · subst hq
      rw [lookupKey_removeKey_self _ _ hg.nodup] at hlk
      exact Option.noConfusion hlk
    · rw [lookupKey_removeKey_ne _ _ _ hq] at hlk
      obtain ⟨c, hAc, hv, hkc, content, hfc, hst⟩ := hg.resolve q e hlk
      exact ⟨c, by rw [if_neg hq]; exact hAc, hv, hkc, content, hfc, hst⟩

/-! ## Preservation over public operations and sequences -/

theorem applyOp_good {s : KvStore} {M : List Nat → Option (List Nat)} {op : Op}
    (hg : GoodIndex s (AofM M)) (hop : validOp op = true)
    (hcap : s.immutable_files.length ≠ ACTIVE_FILE_IDX) :
    ∃ s', applyOp s op = .ok s'
      ∧ GoodIndex s' (AofM (specApply M op))
      ∧ s'.immutable_files.length ≤ s.immutable_files.length + 1 := by
  cases op with
  | set k v =>
    obtain ⟨s', hok, hgood, hlen, -, -⟩ :=
      write_cmd_good (c := .set k v) hg (by simpa [validOp] using hop) hcap
    refine ⟨s', hok, ?_, hlen⟩
    refine goodIndex_congr hgood fun q => ?_
    by_cases hq : q = k
    · subst hq
      simp [Cmd.key, AofM, specApply]
    · simp [Cmd.key, hq, AofM, specApply]
  | rm k =>
    cases hMk : M k with
    | none =>
      have hget : KvStore.get s k = .ok none :=
        get_good_none hg (by simp [AofM, hMk])
      refine ⟨s, ?_, ?_, by omega⟩
      · rw [applyOp, KvStore.remove, hget]
      · refine goodIndex_congr hg fun q => ?_
        by_cases hq : q = k
        · subst hq
          simp [AofM, specApply, hMk]
        · simp [AofM, specApply, hq]
    | some v =>
      have hget : KvStore.get s k = .ok (some v) :=
        get_good_set hg (by simp [AofM, hMk])
      obtain ⟨s2, hok, hgood, hlen, -, -⟩ :=
        write_cmd_good (c := .rm k) hg (by simpa [validOp] using hop) hcap
      have hrem : KvStore.remove s k = .ok { s2 with index := (removeKey s2.index k).2 } := by
        rw [KvStore.remove, hget]
        simp only [hok]
      refine ⟨{ s2 with index := (removeKey s2.index k).2 }, ?_, ?_, ?_⟩
      · rw [applyOp, hrem]
      · have := goodIndex_remove hgood k
        refine goodIndex_congr this fun q => ?_
        by_cases hq : q = k
        · subst hq
          simp [AofM, specApply]
        · simp [AofM, specApply, hq, Cmd.key]
      · simpa using hlen

theorem runOps_good :
    ∀ (ops : List Op) (s : KvStore) (M : List Nat → Option (List Nat)),
      GoodIndex s (AofM M) → validOps ops = true →
      s.immutable_files.length + ops.length < ACTIVE_FILE_IDX →
      ∃ s', runOps s ops = .ok s'
        ∧ GoodIndex s' (AofM (specRun M ops))
        ∧ s'.immutable_files.length ≤ s.immutable_files.length + ops.length := by
  intro ops
  induction ops with
  | nil =>
    intro s M hg _ _
    exact ⟨s, rfl, hg, by omega⟩
  | cons op rest ih =>
    intro s M hg hops hcap
    rw [validOps, List.all_cons, Bool.and_eq_true] at hops
    have hcap' : s.immutable_files.length + (rest.length + 1) < ACTIVE_FILE_IDX := by
      simpa using hcap
    obtain ⟨s1, hok1, hg1, hlen1⟩ := applyOp_good hg hops.1 (by omega)
    obtain ⟨s', hok, hg', hlen⟩ := ih s1 (specApply M op) hg1 (by
      rw [validOps]; exact hops.2) (by omega)
    have hlc : (op :: rest).length = rest.length + 1 := by simp
    refine ⟨s', ?_, hg', by omega⟩
    rw [runOps]
    simp only [hok1]
    exact hok

/-! ## Hydration establishes the index invariant -/

theorem hydrate_go_good (full : List Nat) (hoct : ∀ b ∈ full, b < 256) (file_idx : Nat)
    (P : Index → Cmd → Prop)
    (hP : ∀ off c, validCmd c = true → startsAt full off (Cmd.write c)
      → P (Index.mk file_idx off) c) :
    ∀ (fuel : Nat) (index : IndexMap) (off dead : Nat)
      (A : List Nat → Option Cmd),
      full.length - off < fuel →
      (index.map Prod.fst).Nodup →
      (∀ q, lookupKey index q = none ↔ A q = none) →
      (∀ q e, lookupKey index q = some e → ∃ c, A q = some c ∧ validCmd c = true
        ∧ c.key = q ∧ P e c) →
      (∀ q c, A q = some c → ∃ v, c = .set q v) →
      ∀ {index' : IndexMap} {dead' : Nat},
        hydrate_go file_idx fuel index (full.drop off) off dead = .ok (index', dead') →
        ∃ A' : List Nat → Option Cmd, (index'.map Prod.fst).Nodup
          ∧ (∀ q, lookupKey index' q = none ↔ A' q = none)
          ∧ (∀ q e, lookupKey index' q = some e → ∃ c, A' q = some c ∧ validCmd c = true
              ∧ c.key = q ∧ P e c)
          ∧ (∀ q c, A' q = some c → ∃ v, c = .set q v) := by
  intro fuel
  induction fuel with
  | zero =>
    intro index off dead A hfuel _ _ _ _ index' dead' h
    rw [hydrate_go] at h
    exact Except.noConfusion h
  | succ fuel ih =>
    intro index off dead A hfuel hnodup hlkn hres hsets index' dead' h
    rw [hydrate_go] at h
    cases hrc : Reader.read_cmd (full.drop off) with
    | none =>
      rw [hrc] at h
      simp only [Except.ok.injEq, Prod.mk.injEq] at h
      obtain ⟨hidx, -⟩ := h
      subst hidx
      exact ⟨A, hnodup, hlkn, hres, hsets⟩
    | err m =>
      rw [hrc] at h
      exact Except.noConfusion h
    | crash =>
      rw [hrc] at h
      exact Except.noConfusion h
    | ok c n =>
      obtain ⟨hv, hn, htake⟩ :=
        read_cmd_sound (fun b hb => hoct b (List.drop_subset _ _ hb)) hrc
      obtain ⟨hn12, hnle, -⟩ := read_cmd_ok_bounds hrc
      have hst : startsAt full off (Cmd.write c) := by
        unfold startsAt
        rw [← hn]
        exact htake
      have hrest : (full.drop off).drop n = full.drop (off + n) := by
        rw [List.drop_drop, Nat.add_comm]
      have hlendrop : (full.drop off).length = full.length - off := List.length_drop _ _
      rw [hlendrop] at hnle
      have hhb : HEADER_BYTES = 12 := rfl
      have hfuel' : full.length - (off + n) < fuel := by omega
      rw [hrc] at h
      cases c with
      | get k => exact Except.noConfusion h
      | set k v =>
        dsimp only [] at h
        rw [hrest] at h
        refine ih (insertKey index k (Index.mk file_idx off)).2 (off + n) _
          (fun q => if q = k then some (.set k v) else A q)
          hfuel' (nodup_insertKey _ _ _ hnodup) ?_ ?_ ?_ h
        · intro q
          rw [lookupKey_insertKey]
          by_cases hq : q = k
          · simp [hq]
          · simp only [if_neg hq]
            exact hlkn q
        · intro q e hlk
          rw [lookupKey_insertKey] at hlk
          by_cases hq : q = k
          · rw [if_pos hq, Option.some.injEq] at hlk
            subst hlk
            subst hq
            exact ⟨.set q v, by simp, hv, rfl, hP off _ hv hst⟩
          · rw [if_neg hq] at hlk
            obtain ⟨c', hAc', hv', hk', hP'⟩ := hres q e hlk
            exact ⟨c', by simp [hq, hAc'], hv', hk', hP'⟩
        · intro q c' hq
          have hq' : (if q = k then some (Cmd.set k v) else A q) = some c' := hq
          by_cases hqk : q = k
          · subst hqk
            rw [if_pos rfl, Option.some.injEq] at hq'
            exact ⟨v, hq'.symm⟩
          · rw [if_neg hqk] at hq'
            exact hsets q c' hq'
      | rm k =>
        dsimp only [] at h
        rw [hrest] at h
        refine ih (removeKey index k).2 (off + n) _
          (fun q => if q = k then none else A q)
          hfuel' (nodup_removeKey _ _ hnodup) ?_ ?_ ?_ h
        · intro q
          by_cases hq : q = k
          · subst hq
            simp [lookupKey_removeKey_self _ _ hnodup]
          · rw [lookupKey_removeKey_ne _ _ _ hq]
            simp only [if_neg hq]
            exact hlkn q
        · intro q e hlk
          by_cases hq : q = k
          · subst hq
            rw [lookupKey_removeKey_self _ _ hnodup] at hlk
            exact Option.noConfusion hlk
          · rw [lookupKey_removeKey_ne _ _ _ hq] at hlk
            obtain ⟨c', hAc', hv', hk', hP'⟩ := hres q e hlk
            exact ⟨c', by simp [hq, hAc'], hv', hk', hP'⟩
        · intro q c' hq
          have hq' : (if q = k then none else A q) = some c' := hq
          by_cases hqk : q = k
          · subst hqk
            rw [if_pos rfl] at hq'
            exact Option.noConfusion hq'
          · rw [if_neg hqk] at hq'
            exact hsets q c' hq'

theorem hydrate_file_good (content : List Nat) (hoct : ∀ b ∈ content, b < 256)
    (file_idx : Nat) (P : Index → Cmd → Prop)
    (hP : ∀ off c, validCmd c = true → startsAt content off (Cmd.write c)
      → P (Index.mk file_idx off) c)
    (index : IndexMap) (A : List Nat → Option Cmd)
    (hnodup : (index.map Prod.fst).Nodup)
    (hlkn : ∀ q, lookupKey index q = none ↔ A q = none)
    (hres : ∀ q e, lookupKey index q = some e → ∃ c, A q = some c ∧ validCmd c = true
      ∧ c.key = q ∧ P e c)
    (hsets : ∀ q c, A q = some c → ∃ v, c = .set q v)
    {index' : IndexMap} {dead' : Nat}
    (h : hydrate_file index content file_idx = .ok (index', dead')) :
    ∃ A' : List Nat → Option Cmd, (index'.map Prod.fst).Nodup
      ∧ (∀ q, lookupKey index' q = none ↔ A' q = none)
      ∧ (∀ q e, lookupKey index' q = some e → ∃ c, A' q = some c ∧ validCmd c = true
          ∧ c.key = q ∧ P e c)
      ∧ (∀ q c, A' q = some c → ∃ v, c = .set q v) := by
  have h' : hydrate_go file_idx (content.length + 1) index (content.drop 0) 0 0
      = .ok (index', dead') := by
    rw [List.drop_zero]
    exact h
  exact hydrate_go_good content hoct file_idx P hP (content.length + 1) index 0 0 A
    (by omega) hnodup hlkn hres hsets h'

theorem hydrate_files_good (P : Index → Cmd → Prop) :
    ∀ (files : List (List Nat)) (start_idx : Nat),
      (∀ f ∈ files, ∀ b ∈ f, b < 256) →
      (∀ i f, files[i]? = some f → ∀ off c, validCmd c = true →
        startsAt f off (Cmd.write c) → P (Index.mk (start_idx + i) off) c) →
      ∀ (index : IndexMap) (dead : Nat) (A : List Nat → Option Cmd),
      (index.map Prod.fst).Nodup →
      (∀ q, lookupKey index q = none ↔ A q = none) →
      (∀ q e, lookupKey index q = some e → ∃ c, A q = some c ∧ validCmd c = true
        ∧ c.key = q ∧ P e c) →
      (∀ q c, A q = some c → ∃ v, c = .set q v) →
      ∀ {index' : IndexMap} {dead' : Nat},
        hydrate_files index dead start_idx files = .ok (index', dead') →
        ∃ A' : List Nat → Option Cmd, (index'.map Prod.fst).Nodup
          ∧ (∀ q, lookupKey index' q = none ↔ A' q = none)
          ∧ (∀ q e, lookupKey index' q = some e → ∃ c, A' q = some c ∧ validCmd c = true
              ∧ c.key = q ∧ P e c)
          ∧ (∀ q c, A' q = some c → ∃ v, c = .set q v) := by
  intro files
  induction files with
  | nil =>
    intro start_idx _ _ index dead A hnodup hlkn hres hsets index' dead' h
    rw [hydrate_files] at h
    simp only [Except.ok.injEq, Prod.mk.injEq] at h
    obtain ⟨hidx, -⟩ := h
    subst hidx
    exact ⟨A, hnodup, hlkn, hres, hsets⟩
  | cons f rest ih =>
    intro start_idx hoct hP index dead A hnodup hlkn hres hsets index' dead' h
    rw [hydrate_files] at h
    cases hhf : hydrate_file index f start_idx with
    | error e =>
      rw [hhf] at h
      exact Except.noConfusion h
    | ok p =>
      rw [hhf] at h
      obtain ⟨index1, d1⟩ := p
      have hPf : ∀ off c, validCmd c = true → startsAt f off (Cmd.write c)
          → P (Index.mk start_idx off) c := by
        intro off c hv hst
        have := hP 0 f (by simp) off c hv hst
        simpa using this
      obtain ⟨A1, hnodup1, hlkn1, hres1, hsets1⟩ :=
        hydrate_file_good f (fun b hb => hoct f (by simp) b hb) start_idx P hPf
          index A hnodup hlkn hres hsets hhf
      refine ih (start_idx + 1) (fun g hg b hb => hoct g (by simp [hg]) b hb)
        ?_ index1 (dead + d1) A1 hnodup1 hlkn1 hres1 hsets1 h
      intro i g hg off c hv hst
      have hg' : (f :: rest)[i + 1]? = some g := by simpa using hg
      have := hP (i + 1) g hg' off c hv hst
      have harith : start_idx + (i + 1) = start_idx + 1 + i := by omega
      rw [harith] at this
      exact this
theorem openStore_good (files : List (List Nat)) (policy : Nat → Nat → Bool)
    (hoct : ∀ f ∈ files, ∀ b ∈ f, b < 256)
    (hflen : files.length ≤ ACTIVE_FILE_IDX) {s : KvStore}
    (h : KvStore.openStore files policy = .ok s) :
    ∃ A : List Nat → Option Cmd, GoodIndex s A
      ∧ (∀ q c, A q = some c → ∃ v, c = .set q v)
      ∧ s.active_file = (files.getLast?).getD []
      ∧ s.immutable_files = files.dropLast
      ∧ s.compaction_policy = policy := by
  simp only [KvStore.openStore] at h
  split at h
  case h_2 => exact Except.noConfusion h
  case h_1 index1 dead heq1 =>
    split at h
    case h_2 => exact Except.noConfusion h
    case h_1 index2 d2 heq2 =>
      simp only [Except.ok.injEq] at h
      subst h
      have hoctImm : ∀ f ∈ files.dropLast, ∀ b ∈ f, b < 256 :=
        fun f hf => hoct f (( List.dropLast_prefix files).subset hf)
      obtain ⟨A1, hnodup1, hlkn1, hres1, hsets1⟩ :=
        hydrate_files_good
          (fun e c => ∃ content,
            (if e.file_idx = ACTIVE_FILE_IDX then some ((files.getLast?).getD [])
              else files.dropLast[e.file_idx]?) = some content
            ∧ startsAt content e.file_offset (Cmd.write c))
          files.dropLast 0 hoctImm
          (by
            intro i f hf off c hv hst
            have hi : i < files.dropLast.length := by
              by_contra hc
              push_neg at hc
              rw [List.getElem?_eq_none hc] at hf
              exact Option.noConfusion hf
            have hdl : files.dropLast.length = files.length - 1 :=
              List.length_dropLast files
            have hne : (0 + i : Nat) ≠ ACTIVE_FILE_IDX := by omega
            refine ⟨f, ?_, hst⟩
            rw [if_neg hne]
            simpa using hf)
          [] 0 (fun _ => none)
          (by simp)
          (by intro q; simp [lookupKey])
          (by
            intro q e hq
            rw [lookupKey] at hq
            exact Option.noConfusion hq)
          (by intro q c hq; exact Option.noConfusion hq)
          heq1
      have hoctAct : ∀ b ∈ (files.getLast?).getD [], b < 256 := by
        cases hgl : files.getLast? with
        | none => simp
        | some a =>
          have ha : a ∈ files := by
            rw [List.getLast?_eq_getElem?] at hgl
            exact List.getElem?_mem hgl
          simpa using hoct a ha
      obtain ⟨A2, hnodup2, hlkn2, hres2, hsets2⟩ :=
        hydrate_file_good ((files.getLast?).getD []) hoctAct ACTIVE_FILE_IDX
          (fun e c => ∃ content,
            (if e.file_idx = ACTIVE_FILE_IDX then some ((files.getLast?).getD [])
              else files.dropLast[e.file_idx]?) = some content
            ∧ startsAt content e.file_offset (Cmd.write c))
          (by
            intro off c hv hst
            exact ⟨(files.getLast?).getD [], by simp, hst⟩)
          index1 A1 hnodup1 hlkn1 hres1 hsets1 heq2
      refine ⟨A2, ⟨hnodup2, hlkn2, ?_⟩, hsets2, rfl, rfl, rfl⟩
      intro k e hlk
      obtain ⟨c, hA, hv, hk, hPec⟩ := hres2 k e hlk
      exact ⟨c, hA, hv, hk, hPec⟩

/-! ## Assembled invariants: empty open, abstract maps, resolution -/

theorem openEmpty_good (policy : Nat → Nat → Bool) :
    GoodIndex (KvStore.openEmpty policy) (AofM specEmpty) where
  nodup := by simp [KvStore.openEmpty]
  lookup_none := by
    intro k
    simp [KvStore.openEmpty, lookupKey, AofM, specEmpty]
  resolve := by
    intro k e h
    simp [KvStore.openEmpty, lookupKey] at h

theorem AofM_sets (M : List Nat → Option (List Nat)) :
    ∀ q c, AofM M q = some c → ∃ v, c = .set q v := by
  intro q c h
  have h' : (M q).map (fun v => Cmd.set q v) = some c := h
  cases hM : M q with
  | none =>
    rw [hM] at h'
    exact Option.noConfusion h'
  | some v =>
    rw [hM, Option.map_some', Option.some.injEq] at h'
    exact ⟨v, h'.symm⟩

theorem AofM_mapOf {A : List Nat → Option Cmd}
    (hsets : ∀ q c, A q = some c → ∃ v, c = .set q v) :
    ∀ q, AofM (mapOf A) q = A q := by
  intro q
  cases hA : A q with
  | none => simp [AofM, mapOf, hA]
  | some c =>
    obtain ⟨v, rfl⟩ := hsets q c hA
    simp [AofM, mapOf, hA]

theorem goodIndex_resolvesToSet {s : KvStore} {A : List Nat → Option Cmd}
    (hg : GoodIndex s A) (hsets : ∀ q c, A q = some c → ∃ v, c = .set q v) :
    IndexResolvesToSet s := by
  intro k e hlk
  obtain ⟨c, hA, hv, hk, content, hfc, hst⟩ := hg.resolve k e hlk
  obtain ⟨v, rfl⟩ := hsets k c hA
  exact ⟨content, v, (Cmd.write (.set k v)).length, hfc, read_cmd_of_startsAt hv hst⟩

/-! ## Claim C1 -/

/-- C1: for every finite sequence of set/remove operations applied through
the engine's public interface to a store opened on an empty directory
(including sequences long enough to trigger roll-over and compaction), the
run completes and `get k` returns exactly the value of the most recent
`set k v` not superseded by a later `set k _` or `rm k`, and `none` when no
such `set` survives. -/
theorem claim_C1 (policy : Nat → Nat → Bool) (ops : List Op)
    (hops : validOps ops = true) (hcap : ops.length < ACTIVE_FILE_IDX)
    (k : List Nat) :
    ∃ s, runOps (KvStore.openEmpty policy) ops = .ok s
      ∧ KvStore.get s k = .ok (specRun specEmpty ops k) := by
  obtain ⟨s, hrun, hg, -⟩ :=
    runOps_good ops (KvStore.openEmpty policy) specEmpty (openEmpty_good policy)
      hops (by simpa [KvStore.openEmpty] using hcap)
  refine ⟨s, hrun, ?_⟩
  cases hMk : specRun specEmpty ops k with
  | none => exact get_good_none hg (by simp [AofM, hMk])
  | some v => exact get_good_set hg (by simp [AofM, hMk])

theorem claim_C1_witness :
    validOps [Op.set [97] [98], Op.rm [97], Op.set [98] [99]] = true
    ∧ [Op.set [97] [98], Op.rm [97], Op.set [98] [99]].length < ACTIVE_FILE_IDX
    ∧ specRun specEmpty [Op.set [97] [98], Op.rm [97], Op.set [98] [99]] [98] = some [99]
    ∧ ∃ s, runOps (KvStore.openEmpty neverPolicy)
          [Op.set [97] [98], Op.rm [97], Op.set [98] [99]] = .ok s
        ∧ KvStore.get s [98]
          = .ok (specRun specEmpty [Op.set [97] [98], Op.rm [97], Op.set [98] [99]] [98]) :=
  ⟨by decide, by decide, by decide,
   claim_C1 neverPolicy [Op.set [97] [98], Op.rm [97], Op.set [98] [99]]
     (by decide) (by decide) [98]⟩

/-! ## Claim C2 -/

/-- C2: the record codec round-trips on every representable record; the
encoding is the 12-byte header (4-byte big-endian key length, then 8-byte
big-endian value length, with the `Get`/`Remove` sentinels) followed by the
key bytes and, for `Set`, the value bytes; its length is exactly
`12 + key_length + value_length_on_disk`; and `Set("abc","defg")` encodes
to header `00 00 00 03 00 00 00 00 00 00 00 04` followed by ASCII
`abcdefg`, which decodes back to the same record. -/
theorem claim_C2 :
    (∀ c, validCmd c = true →
        Cmd.parse (Cmd.write c) = .ok c
        ∧ (Cmd.write c).length
            = HEADER_BYTES + c.key.length
              + (match c with | .set _ v => v.length | _ => 0)
        ∧ Cmd.write c
            = beBytes 4 c.key.length
              ++ beBytes 8 (match c with
                  | .set _ v => v.length
                  | .get _ => GET_VALUE_LEN
                  | .rm _ => RM_VALUE_LEN)
              ++ c.key ++ (match c with | .set _ v => v | _ => []))
    ∧ Cmd.write (.set (asciiBytes "abc") (asciiBytes "defg"))
        = [0, 0, 0, 3, 0, 0, 0, 0, 0, 0, 0, 4] ++ asciiBytes "abcdefg"
    ∧ Cmd.parse ([0, 0, 0, 3, 0, 0, 0, 0, 0, 0, 0, 4] ++ asciiBytes "abcdefg")
        = .ok (.set (asciiBytes "abc") (asciiBytes "defg")) := by
  refine ⟨?_, by decide, by decide⟩
  intro c hc
  refine ⟨by have := parse_write c [] hc; rwa [List.append_nil] at this,
    length_write c, ?_⟩
  cases c with
  | set k v =>
    simp only [validCmd, Bool.and_eq_true, decide_eq_true_eq] at hc
    obtain ⟨⟨⟨⟨hk32, hkutf⟩, hv3⟩, hsum⟩, hvutf⟩ := hc
    simp [Cmd.write, Cmd.key, Nat.mod_eq_of_lt hk32,
      Nat.mod_eq_of_lt (show v.length < U64_MOD by
        simp only [U64_MOD] at hsum ⊢; omega)]
  | get k =>
    simp only [validCmd, Bool.and_eq_true, decide_eq_true_eq] at hc
    simp [Cmd.write, Cmd.key, Nat.mod_eq_of_lt hc.1]
  | rm k =>
    simp only [validCmd, Bool.and_eq_true, decide_eq_true_eq] at hc
    simp [Cmd.write, Cmd.key, Nat.mod_eq_of_lt hc.1]

theorem claim_C2_witness :
    validCmd (.set (asciiBytes "abc") (asciiBytes "defg")) = true
    ∧ Cmd.parse (Cmd.write (.set (asciiBytes "abc") (asciiBytes "defg")))
        = .ok (.set (asciiBytes "abc") (asciiBytes "defg")) :=
  ⟨by decide, (claim_C2.1 (.set (asciiBytes "abc") (asciiBytes "defg")) (by decide)).1⟩

/-! ## Claim C3 -/

/-- C3: every key present in the in-memory index resolves, through the
record reader, to a record decoding as `Set(key, _)`; this holds for the
store produced by `open` (hydration of octet files) and is preserved by
every completed sequence of public operations, including runs that roll
over or compact. -/
theorem claim_C3 (files : List (List Nat)) (policy : Nat → Nat → Bool)
    (ops : List Op) {s₀ s : KvStore}
    (hoct : ∀ f ∈ files, ∀ b ∈ f, b < 256)
    (hcap : files.length + ops.length < ACTIVE_FILE_IDX)
    (hopen : KvStore.openStore files policy = .ok s₀)
    (hops : validOps ops = true)
    (hrun : runOps s₀ ops = .ok s) :
    IndexResolvesToSet s₀ ∧ IndexResolvesToSet s := by
  obtain ⟨A, hg, hsets, -, himm, -⟩ :=
    openStore_good files policy hoct (by omega) hopen
  have hres₀ : IndexResolvesToSet s₀ := goodIndex_resolvesToSet hg hsets
  have hgM : GoodIndex s₀ (AofM (mapOf A)) :=
    goodIndex_congr hg (fun q => (AofM_mapOf hsets q).symm)
  obtain ⟨s', hrun', hg', -⟩ :=
    runOps_good ops s₀ (mapOf A) hgM hops (by
      rw [himm]
      have hdl : files.dropLast.length = files.length - 1 := List.length_dropLast files
      omega)
  rw [hrun] at hrun'
  simp only [Except.ok.injEq] at hrun'
  subst hrun'
  exact ⟨hres₀, goodIndex_resolvesToSet hg' (AofM_sets _)⟩

theorem claim_C3_witness :
    (∀ f ∈ [[0, 0, 0, 1, 0, 0, 0, 0, 0, 0, 0, 1, 107, 118]], ∀ b ∈ f, b < 256)
    ∧ [[0, 0, 0, 1, 0, 0, 0, 0, 0, 0, 0, 1, 107, 118]].length
        + [Op.set [108] [119]].length < ACTIVE_FILE_IDX
    ∧ KvStore.openStore [[0, 0, 0, 1, 0, 0, 0, 0, 0, 0, 0, 1, 107, 118]] neverPolicy
        = .ok { active_file := [0, 0, 0, 1, 0, 0, 0, 0, 0, 0, 0, 1, 107, 118],
                immutable_files := [],
                index := [([107], Index.mk ACTIVE_FILE_IDX 0)],
                dead_data_count := 0, compaction_policy := neverPolicy }
    ∧ validOps [Op.set [108] [119]] = true
    ∧ runOps { active_file := [0, 0, 0, 1, 0, 0, 0, 0, 0, 0, 0, 1, 107, 118],
               immutable_files := [],
               index := [([107], Index.mk ACTIVE_FILE_IDX 0)],
               dead_data_count := 0, compaction_policy := neverPolicy }
        [Op.set [108] [119]]
        = .ok { active_file := [0, 0, 0, 1, 0, 0, 0, 0, 0, 0, 0, 1, 107, 118]
                  ++ [0, 0, 0, 1, 0, 0, 0, 0, 0, 0, 0, 1, 108, 119],
                immutable_files := [],
                index := [([107], Index.mk ACTIVE_FILE_IDX 0),
                          ([108], Index.mk ACTIVE_FILE_IDX 14)],
                dead_data_count := 0, compaction_policy := neverPolicy }
    ∧ IndexResolvesToSet
        { active_file := [0, 0, 0, 1, 0, 0, 0, 0, 0, 0, 0, 1, 107, 118],
          immutable_files := [],
          index := [([107], Index.mk ACTIVE_FILE_IDX 0)],
          dead_data_count := 0, compaction_policy := neverPolicy }
    ∧ IndexResolvesToSet
        { active_file := [0, 0, 0, 1, 0, 0, 0, 0, 0, 0, 0, 1, 107, 118]
            ++ [0, 0, 0, 1, 0, 0, 0, 0, 0, 0, 0, 1, 108, 119],
          immutable_files := [],
          index := [([107], Index.mk ACTIVE_FILE_IDX 0),
                    ([108], Index.mk ACTIVE_FILE_IDX 14)],
          dead_data_count := 0, compaction_policy := neverPolicy } := by
  refine ⟨by decide, by decide, rfl, by decide, rfl, ?_, ?_⟩
  · exact (claim_C3 [[0, 0, 0, 1, 0, 0, 0, 0, 0, 0, 0, 1, 107, 118]] neverPolicy
      [Op.set [108] [119]] (by decide) (by decide) rfl (by decide) rfl).1
  · exact (claim_C3 [[0, 0, 0, 1, 0, 0, 0, 0, 0, 0, 0, 1, 107, 118]] neverPolicy
      [Op.set [108] [119]] (by decide) (by decide) rfl (by decide) rfl).2

/-! ## The two branches of `write_cmd` under the never-compact policy -/

theorem write_cmd_of_small (s : KvStore) (c : Cmd)
    (hpol : s.compaction_policy = neverPolicy)
    (hsmall : ¬ FILE_SIZE_LIMIT < s.active_file.length) :
    KvStore.write_cmd s c = .ok
      { s with
        active_file := s.active_file ++ Cmd.write c,
        index := (insertKey s.index c.key
          (Index.mk ACTIVE_FILE_IDX s.active_file.length)).2,
        dead_data_count :=
          match (insertKey s.index c.key
              (Index.mk ACTIVE_FILE_IDX s.active_file.length)).1 with
          | some previous_value =>
            if previous_value.file_idx ≠ ACTIVE_FILE_IDX then s.dead_data_count + 1
            else s.dead_data_count
          | none => s.dead_data_count } := by
  rw [KvStore.write_cmd]
  simp only [if_neg hsmall, hpol, neverPolicy, Bool.false_eq_true, if_false]

theorem write_cmd_of_large (s : KvStore) (c : Cmd)
    (hpol : s.compaction_policy = neverPolicy)
    (hbig : FILE_SIZE_LIMIT < s.active_file.length) :
    KvStore.write_cmd s c = .ok
      { s with
        active_file := [],
        immutable_files := s.immutable_files ++ [s.active_file ++ Cmd.write c],
        index := relabelActive
          (insertKey s.index c.key
            (Index.mk ACTIVE_FILE_IDX s.active_file.length)).2
          s.immutable_files.length,
        dead_data_count :=
          match (insertKey s.index c.key
              (Index.mk ACTIVE_FILE_IDX s.active_file.length)).1 with
          | some previous_value =>
            if previous_value.file_idx ≠ ACTIVE_FILE_IDX then s.dead_data_count + 1
            else s.dead_data_count
          | none => s.dead_data_count } := by
  rw [KvStore.write_cmd]
  simp only [if_pos hbig, hpol, neverPolicy, Bool.false_eq_true, if_false]

theorem runOps_append (s : KvStore) (l1 l2 : List Op) :
    runOps s (l1 ++ l2)
      = match runOps s l1 with
        | .ok s' => runOps s' l2
        | .error e => .error e := by
  induction l1 generalizing s with
  | nil => rw [List.nil_append, runOps]
  | cons op rest ih =>
    rw [List.cons_append, runOps, runOps]
    cases applyOp s op with
    | ok s1 => exact ih s1
    | error e => rfl

theorem runOps_sets_small (L : Nat) :
    ∀ (kvs : List (List Nat × List Nat)) (s : KvStore),
      s.compaction_policy = neverPolicy →
      (∀ kv ∈ kvs, (Cmd.write (.set kv.1 kv.2)).length = L) →
      s.active_file.length + kvs.length * L ≤ FILE_SIZE_LIMIT + L →
      ∃ s', runOps s (kvs.map fun kv => Op.set kv.1 kv.2) = .ok s'
        ∧ s'.immutable_files = s.immutable_files
        ∧ s'.active_file.length = s.active_file.length + kvs.length * L
        ∧ s'.compaction_policy = neverPolicy := by
  intro kvs
  induction kvs with
  | nil =>
    intro s hpol _ _
    exact ⟨s, rfl, rfl, by simp, hpol⟩
  | cons kv rest ih =>
    intro s hpol hL hbound
    have hlen : (kv :: rest).length = rest.length + 1 := by simp
    have hmul : (rest.length + 1) * L = rest.length * L + L := by ring
    rw [hlen, hmul] at hbound
    have hsmall : ¬ FILE_SIZE_LIMIT < s.active_file.length := by omega
    have hw := write_cmd_of_small s (.set kv.1 kv.2) hpol hsmall
    have hL1 : (Cmd.write (.set kv.1 kv.2)).length = L := hL kv (by simp)
    obtain ⟨s', hrun, himm, hact, hpol'⟩ := ih
      { s with
        active_file := s.active_file ++ Cmd.write (.set kv.1 kv.2),
        index := (insertKey s.index (Cmd.set kv.1 kv.2).key
          (Index.mk ACTIVE_FILE_IDX s.active_file.length)).2,
        dead_data_count :=
          match (insertKey s.index (Cmd.set kv.1 kv.2).key
              (Index.mk ACTIVE_FILE_IDX s.active_file.length)).1 with
          | some previous_value =>
            if previous_value.file_idx ≠ ACTIVE_FILE_IDX then s.dead_data_count + 1
            else s.dead_data_count
          | none => s.dead_data_count }
      hpol (fun kv' h' => hL kv' (by simp [h'])) (by
        simp only [List.length_append, hL1]
        omega)
    refine ⟨s', ?_, himm, ?_, hpol'⟩
    · rw [List.map_cons, runOps]
      simp only [applyOp, KvStore.set, hw]
      exact hrun
    · rw [hact]
      simp only [List.length_append, hL1, hlen, hmul]
      omega

/-! ## Claim C4 -/

/-- C4 (amended): under the never-compact policy, `write_cmd` rolls over
exactly when the PRE-append offset (the active file's length before this
record is appended) strictly exceeds `FILE_SIZE_LIMIT`; on roll-over the
active file with the new record already appended becomes the last immutable
file, the active file restarts empty, and the index is rewritten by
relabelling every active-sentinel entry to the newly immutable slot.
Consequently, three writes with 400 KiB values leave a single file (no
immutable files) even though the post-append length exceeds the limit, and
only a fourth write rolls over, leaving one immutable file plus an empty
active file. -/
theorem claim_C4 :
    (∀ (s : KvStore) (c : Cmd), s.compaction_policy = neverPolicy →
      ∃ s', KvStore.write_cmd s c = .ok s'
        ∧ (FILE_SIZE_LIMIT < s.active_file.length →
            s'.active_file = []
            ∧ s'.immutable_files = s.immutable_files ++ [s.active_file ++ Cmd.write c]
            ∧ s'.index = relabelActive
                (insertKey s.index c.key
                  (Index.mk ACTIVE_FILE_IDX s.active_file.length)).2
                s.immutable_files.length)
        ∧ (s.active_file.length ≤ FILE_SIZE_LIMIT →
            s'.active_file = s.active_file ++ Cmd.write c
            ∧ s'.immutable_files = s.immutable_files))
    ∧ (∃ s3, runOps (KvStore.openEmpty neverPolicy)
          [Op.set [107] (List.replicate 409600 97),
           Op.set [108] (List.replicate 409600 97),
           Op.set [109] (List.replicate 409600 97)] = .ok s3
        ∧ s3.immutable_files.length = 0
        ∧ FILE_SIZE_LIMIT < s3.active_file.length)
    ∧ (∃ s4, runOps (KvStore.openEmpty neverPolicy)
          [Op.set [107] (List.replicate 409600 97),
           Op.set [108] (List.replicate 409600 97),
           Op.set [109] (List.replicate 409600 97),
           Op.set [110] (List.replicate 409600 97)] = .ok s4
        ∧ s4.immutable_files.length = 1
        ∧ s4.active_file = []) := by
  have hLgen : ∀ (k : Nat), (Cmd.write (.set [k] (List.replicate 409600 97))).length
      = 409613 := by
    intro k
    rw [length_write]
    show HEADER_BYTES + ([k] : List Nat).length
      + (List.replicate 409600 (97 : Nat)).length = 409613
    rw [List.length_replicate]
    simp only [List.length_cons, List.length_nil]
    decide
  have hL : ∀ kv ∈ [([107], List.replicate 409600 97),
      ([108], List.replicate 409600 97),
      (([109] : List Nat), List.replicate 409600 (97 : Nat))],
      (Cmd.write (.set kv.1 kv.2)).length = 409613 := by
    intro kv hkv
    simp only [List.mem_cons, List.not_mem_nil, or_false] at hkv
    rcases hkv with rfl | rfl | rfl <;> exact hLgen _
  obtain ⟨s3, hrun3, himm3, hact3, hpol3⟩ :=
    runOps_sets_small 409613
      [([107], List.replicate 409600 97), ([108], List.replicate 409600 97),
       ([109], List.replicate 409600 97)]
      (KvStore.openEmpty neverPolicy) rfl hL
      (by
        show (0 : Nat) + 3 * 409613 ≤ FILE_SIZE_LIMIT + 409613
        decide)
  have hact3' : s3.active_file.length = 1228839 := by
    rw [hact3]
    show (0 : Nat) + 3 * 409613 = 1228839
    decide
  have himm3' : s3.immutable_files = [] := himm3
  refine ⟨?_, ⟨s3, hrun3, by rw [himm3']; rfl, by rw [hact3']; decide⟩, ?_⟩
  · intro s c hpol
    by_cases hbig : FILE_SIZE_LIMIT < s.active_file.length
    · refine ⟨_, write_cmd_of_large s c hpol hbig, fun _ => ⟨rfl, rfl, rfl⟩, ?_⟩
      intro hle
      omega
    · refine ⟨_, write_cmd_of_small s c hpol hbig, ?_, fun _ => ⟨rfl, rfl⟩⟩
      intro h
      exact absurd h hbig
  · have hbig3 : FILE_SIZE_LIMIT < s3.active_file.length := by
      rw [hact3']
      decide
    have h4 := write_cmd_of_large s3 (.set [110] (List.replicate 409600 97)) hpol3 hbig3
    have hrun4 : runOps s3 [Op.set [110] (List.replicate 409600 97)] = .ok
        { s3 with
          active_file := [],
          immutable_files := s3.immutable_files
            ++ [s3.active_file ++ Cmd.write (.set [110] (List.replicate 409600 97))],
          index := relabelActive
            (insertKey s3.index (Cmd.set [110] (List.replicate 409600 97)).key
              (Index.mk ACTIVE_FILE_IDX s3.active_file.length)).2
            s3.immutable_files.length,
          dead_data_count :=
            match (insertKey s3.index (Cmd.set [110] (List.replicate 409600 97)).key
                (Index.mk ACTIVE_FILE_IDX s3.active_file.length)).1 with
            | some previous_value =>
              if previous_value.file_idx ≠ ACTIVE_FILE_IDX then s3.dead_data_count + 1
              else s3.dead_data_count
            | none => s3.dead_data_count } := by
      rw [runOps]
      simp only [applyOp, KvStore.set, h4]
      rfl
    have heq : runOps (KvStore.openEmpty neverPolicy)
        [Op.set [107] (List.replicate 409600 97),
         Op.set [108] (List.replicate 409600 97),
         Op.set [109] (List.replicate 409600 97),
         Op.set [110] (List.replicate 409600 97)]
      = runOps (KvStore.openEmpty neverPolicy)
        (([([107], List.replicate 409600 97), ([108], List.replicate 409600 97),
           ([109], List.replicate 409600 97)].map fun kv => Op.set kv.1 kv.2)
          ++ [Op.set [110] (List.replicate 409600 97)]) := rfl
    refine ⟨_, by rw [heq, runOps_append, hrun3]; exact hrun4, ?_, ?_⟩
    · show (s3.immutable_files
        ++ [s3.active_file ++ Cmd.write (.set [110] (List.replicate 409600 97))]).length = 1
      rw [himm3']
      rfl
    · rfl

theorem claim_C4_witness :
    (KvStore.openEmpty neverPolicy).compaction_policy = neverPolicy
    ∧ (∃ s', KvStore.write_cmd (KvStore.openEmpty neverPolicy) (.set [107] [118]) = .ok s'
        ∧ (FILE_SIZE_LIMIT < (KvStore.openEmpty neverPolicy).active_file.length →
            s'.active_file = []
            ∧ s'.immutable_files = (KvStore.openEmpty neverPolicy).immutable_files
                ++ [(KvStore.openEmpty neverPolicy).active_file
                    ++ Cmd.write (.set [107] [118])]
            ∧ s'.index = relabelActive
                (insertKey (KvStore.openEmpty neverPolicy).index
                  (Cmd.set [107] [118]).key
                  (Index.mk ACTIVE_FILE_IDX
                    (KvStore.openEmpty neverPolicy).active_file.length)).2
                (KvStore.openEmpty neverPolicy).immutable_files.length)
        ∧ ((KvStore.openEmpty neverPolicy).active_file.length ≤ FILE_SIZE_LIMIT →
            s'.active_file = (KvStore.openEmpty neverPolicy).active_file
              ++ Cmd.write (.set [107] [118])
            ∧ s'.immutable_files = (KvStore.openEmpty neverPolicy).immutable_files)) :=
  ⟨rfl, claim_C4.1 (KvStore.openEmpty neverPolicy) (.set [107] [118]) rfl⟩

/-- C4, counterexample to the original wording: the roll-over test compares
`FILE_SIZE_LIMIT` with the PRE-append offset, so after three 400 KiB writes
the store still has no immutable file (one directory file, not two), even
though the active file's post-append length exceeds the limit. -/
theorem claim_C4_counterexample :
    ∃ s3, runOps (KvStore.openEmpty neverPolicy)
        [Op.set [107] (List.replicate 409600 97),
         Op.set [108] (List.replicate 409600 97),
         Op.set [109] (List.replicate 409600 97)] = .ok s3
      ∧ FILE_SIZE_LIMIT < s3.active_file.length
      ∧ s3.immutable_files.length = 0
      ∧ ¬ s3.immutable_files.length = 1 := by
  have hLgen : ∀ (k : Nat), (Cmd.write (.set [k] (List.replicate 409600 97))).length
      = 409613 := by
    intro k
    rw [length_write]
    show HEADER_BYTES + ([k] : List Nat).length
      + (List.replicate 409600 (97 : Nat)).length = 409613
    rw [List.length_replicate]
    simp only [List.length_cons, List.length_nil]
    decide
  have hL : ∀ kv ∈ [([107], List.replicate 409600 97),
      ([108], List.replicate 409600 97),
      (([109] : List Nat), List.replicate 409600 (97 : Nat))],
      (Cmd.write (.set kv.1 kv.2)).length = 409613 := by
    intro kv hkv
    simp only [List.mem_cons, List.not_mem_nil, or_false] at hkv
    rcases hkv with rfl | rfl | rfl <;> exact hLgen _
  obtain ⟨s3, hrun3, himm3, hact3, -⟩ :=
    runOps_sets_small 409613
      [([107], List.replicate 409600 97), ([108], List.replicate 409600 97),
       ([109], List.replicate 409600 97)]
      (KvStore.openEmpty neverPolicy) rfl hL
      (by
        show (0 : Nat) + 3 * 409613 ≤ FILE_SIZE_LIMIT + 409613
        decide)
  have hact3' : s3.active_file.length = 1228839 := by
    rw [hact3]
    show (0 : Nat) + 3 * 409613 = 1228839
    decide
  have himm3' : s3.immutable_files = [] := himm3
  refine ⟨s3, hrun3, by rw [hact3']; decide, by rw [himm3']; rfl, ?_⟩
  rw [himm3']
  decide

/-! ## Claim C5 -/

/-- C5: for every store whose index satisfies the resolution invariant,
compaction succeeds and afterwards the immutable-file list has exactly one
element, the dead-record counter is 0, the active file is untouched, and
entry-wise: an entry bearing the active sentinel is unchanged, while every
other entry now references slot 0 at an offset where a record for its key
starts inside the compacted file. -/
theorem claim_C5 {s : KvStore} {A : List Nat → Option Cmd} (hg : GoodIndex s A) :
    ∃ s', KvStore.compactify s = .ok s'
      ∧ s'.immutable_files.length = 1
      ∧ s'.dead_data_count = 0
      ∧ s'.active_file = s.active_file
      ∧ s'.compaction_policy = s.compaction_policy
      ∧ List.Forall₂ (fun p p' : List Nat × Index =>
          p.1 = p'.1
          ∧ ((p.2.file_idx = ACTIVE_FILE_IDX ∧ p' = p)
             ∨ (p.2.file_idx ≠ ACTIVE_FILE_IDX ∧ p'.2.file_idx = 0
                 ∧ ∃ c, validCmd c = true ∧ c.key = p.1
                     ∧ startsAt s'.immutable_files.head! p'.2.file_offset (Cmd.write c))))
          s.index s'.index := by
  obtain ⟨s', hok, -, hact, himm, hdead, hpol, hrel⟩ := compactify_good hg
  exact ⟨s', hok, himm, hdead, hact, hpol, hrel⟩

theorem claim_C5_witness :
    GoodIndex
      { active_file := [9, 9, 9],
        immutable_files := [Cmd.write (.set [107] [1]), Cmd.write (.set [108] [2])],
        index := [([107], Index.mk 0 0), ([108], Index.mk 1 0)],
        dead_data_count := 5, compaction_policy := neverPolicy }
      (fun k => if k = [107] then some (Cmd.set [107] [1])
        else if k = [108] then some (Cmd.set [108] [2]) else none)
    ∧ ∃ s', KvStore.compactify
        { active_file := [9, 9, 9],
          immutable_files := [Cmd.write (.set [107] [1]), Cmd.write (.set [108] [2])],
          index := [([107], Index.mk 0 0), ([108], Index.mk 1 0)],
          dead_data_count := 5, compaction_policy := neverPolicy } = .ok s'
      ∧ s'.immutable_files.length = 1
      ∧ s'.dead_data_count = 0
      ∧ s'.active_file = [9, 9, 9]
      ∧ s'.compaction_policy = neverPolicy
      ∧ List.Forall₂ (fun p p' : List Nat × Index =>
          p.1 = p'.1
          ∧ ((p.2.file_idx = ACTIVE_FILE_IDX ∧ p' = p)
             ∨ (p.2.file_idx ≠ ACTIVE_FILE_IDX ∧ p'.2.file_idx = 0
                 ∧ ∃ c, validCmd c = true ∧ c.key = p.1
                     ∧ startsAt s'.immutable_files.head! p'.2.file_offset (Cmd.write c))))
          [([107], Index.mk 0 0), ([108], Index.mk 1 0)] s'.index := by
  have hg : GoodIndex
      { active_file := [9, 9, 9],
        immutable_files := [Cmd.write (.set [107] [1]), Cmd.write (.set [108] [2])],
        index := [([107], Index.mk 0 0), ([108], Index.mk 1 0)],
        dead_data_count := 5, compaction_policy := neverPolicy }
      (fun k => if k = [107] then some (Cmd.set [107] [1])
        else if k = [108] then some (Cmd.set [108] [2]) else none) := by
    refine ⟨by decide, ?_, ?_⟩
    · intro k
      show lookupKey [([107], Index.mk 0 0), ([108], Index.mk 1 0)] k = none
        ↔ (if k = [107] then some (Cmd.set [107] [1])
            else if k = [108] then some (Cmd.set [108] [2]) else none) = none
      by_cases h7 : k = [107]
      · subst h7
        decide
      · by_cases h8 : k = [108]
        · subst h8
          decide
        · rw [lookupKey, if_neg (fun h => h7 h.symm), lookupKey,
            if_neg (fun h => h8 h.symm), lookupKey, if_neg h7, if_neg h8]
          exact ⟨fun _ => rfl, fun _ => rfl⟩
    · intro k e h
      by_cases h7 : k = [107]
      · subst h7
        have h' : some (Index.mk 0 0) = some e := h
        cases h'
        exact ⟨Cmd.set [107] [1], rfl, by decide, rfl,
          ⟨Cmd.write (.set [107] [1]), rfl, by unfold startsAt; decide⟩⟩
      · by_cases h8 : k = [108]
        · subst h8
          have h' : some (Index.mk 1 0) = some e := h
          cases h'
          exact ⟨Cmd.set [108] [2], rfl, by decide, rfl,
            ⟨Cmd.write (.set [108] [2]), rfl, by unfold startsAt; decide⟩⟩
        · rw [lookupKey, if_neg (fun hq => h7 hq.symm), lookupKey,
            if_neg (fun hq => h8 hq.symm), lookupKey] at h
          exact Option.noConfusion h
  exact ⟨hg, claim_C5 hg⟩

/-! ## Claim C6 -/

/-- C6 (amended): for every remove request whose key is absent from the
store's index, the engine returns `Err("Key not found")`, and the server
replies with the `Err` response variant carrying that text -- tag byte
`'e'` (101) -- not with the `KeyNotFound` variant (tag `'n'`). -/
theorem claim_C6 (s : KvStore) (k : List Nat)
    (h : lookupKey s.index k = none) :
    Server.handle_rm s k = some (.err (asciiBytes "Key not found"))
    ∧ (Response.write (Response.err (asciiBytes "Key not found"))).head? = some 101 := by
  have hget : KvStore.get s k = .ok none := by
    rw [KvStore.get, h]
  have hrm : KvStore.remove s k = .error .keyNotFound := by
    rw [KvStore.remove, hget]
  refine ⟨?_, by decide⟩
  rw [Server.handle_rm, hrm]
  rfl

theorem claim_C6_witness :
    lookupKey (KvStore.openEmpty neverPolicy).index [107] = none
    ∧ Server.handle_rm (KvStore.openEmpty neverPolicy) [107]
        = some (.err (asciiBytes "Key not found"))
    ∧ (Response.write (Response.err (asciiBytes "Key not found"))).head? = some 101 :=
  ⟨by decide, claim_C6 (KvStore.openEmpty neverPolicy) [107] (by decide)⟩

/-- C6, counterexample to the original wording: a remove of an absent key
produces the `Err` response (tag 101, `'e'`), not the `KeyNotFound`
response variant (tag 110, `'n'`). -/
theorem claim_C6_counterexample :
    Server.handle_rm (KvStore.openEmpty neverPolicy) [107]
      = some (.err (asciiBytes "Key not found"))
    ∧ Server.handle_rm (KvStore.openEmpty neverPolicy) [107] ≠ some .keyNotFound
    ∧ (Response.write (Response.err (asciiBytes "Key not found"))).head? = some 101
    ∧ (Response.write Response.keyNotFound).head? = some 110 := by
  refine ⟨?_, ?_, by decide, by decide⟩ <;> decide

/-! ## Claim C7 -/

/-- C7 (code bug): when the byte source ends after 1 to 11 header bytes,
`read_cmd` panics (`split_at(HEADER_BYTES)` on a shorter buffer) instead of
returning a `MalformedRecord`-class error; `None` is indeed returned on
clean EOF before any byte, and EOF inside the body after a full header does
produce an error. -/
theorem claim_C7 :
    Reader.read_cmd [0, 0, 0, 0, 0] = .crash
    ∧ Reader.read_cmd [] = .none
    ∧ (∀ src : List Nat, 1 ≤ src.length → src.length ≤ 11 →
        Reader.read_cmd src = .crash)
    ∧ Reader.read_cmd [0, 0, 0, 5, 255, 255, 255, 255, 255, 255, 255, 255, 97, 98]
        = .err "Insufficient data for key" := by
  refine ⟨by decide, by decide, ?_, by decide⟩
  intro src h1 h11
  rw [read_cmd_short src (by
    show src.length < HEADER_BYTES
    have hhb : HEADER_BYTES = 12 := rfl
    omega)]
  rw [if_neg (by omega)]

theorem claim_C7_witness :
    1 ≤ ([0, 0, 0, 0] : List Nat).length
    ∧ ([0, 0, 0, 0] : List Nat).length ≤ 11
    ∧ Reader.read_cmd [0, 0, 0, 0] = .crash :=
  ⟨by decide, by decide, claim_C7.2.2.1 [0, 0, 0, 0] (by decide) (by decide)⟩

/-! ## Claim C8 -/

/-- C8 (amended): on a connection whose framer yields clean EOF before any
byte, the server writes back the RAW bytes of `"Response had no data"`, and
on a framer error the RAW bytes of the error context
`"parsing command body"` -- in neither case a `Response::write` encoding
with a leading `'e'` tag. -/
theorem claim_C8 :
    (∀ (s : KvStore) (req : List Nat), Reader.read_cmd req = .none →
      Server.connection_reply s req = some (asciiBytes "Response had no data"))
    ∧ (∀ (s : KvStore) (req : List Nat) (e : String), Reader.read_cmd req = .err e →
      Server.connection_reply s req = some (asciiBytes "parsing command body")) := by
  constructor
  · intro s req h
    rw [Server.connection_reply, h]
  · intro s req e h
    rw [Server.connection_reply, h]

theorem claim_C8_witness :
    Reader.read_cmd ([] : List Nat) = .none
    ∧ Server.connection_reply (KvStore.openEmpty neverPolicy) []
        = some (asciiBytes "Response had no data")
    ∧ Reader.read_cmd [0, 0, 0, 5, 255, 255, 255, 255, 255, 255, 255, 255, 97, 98]
        = .err "Insufficient data for key"
    ∧ Server.connection_reply (KvStore.openEmpty neverPolicy)
        [0, 0, 0, 5, 255, 255, 255, 255, 255, 255, 255, 255, 97, 98]
        = some (asciiBytes "parsing command body") :=
  ⟨by decide,
   claim_C8.1 (KvStore.openEmpty neverPolicy) [] (by decide),
   by decide,
   claim_C8.2 (KvStore.openEmpty neverPolicy)
     [0, 0, 0, 5, 255, 255, 255, 255, 255, 255, 255, 255, 97, 98]
     "Insufficient data for key" (by decide)⟩

/-- C8, counterexample to the original wording: the clean-EOF reply is the
raw message text, which neither starts with the `'e'` tag nor decodes back
to an `Err` carrying that text. -/
theorem claim_C8_counterexample :
    Server.connection_reply (KvStore.openEmpty neverPolicy) []
      = some (asciiBytes "Response had no data")
    ∧ (asciiBytes "Response had no data").head? ≠ some 101
    ∧ Response.from_bytes (asciiBytes "Response had no data")
        = .err (asciiBytes "Invalid start byte")
    ∧ Response.from_bytes (asciiBytes "Response had no data")
        ≠ .err (asciiBytes "Response had no data") := by
  refine ⟨by decide, by decide, by decide, by decide⟩

/-! ## Claim C9 -/

theorem insertSorted_length (x : List Nat) (l : List (List Nat)) :
    (insertSorted x l).length = l.length + 1 := by
  induction l with
  | nil => rfl
  | cons y rest ih =>
    rw [insertSorted]
    by_cases h : lexLe x y
    · simp [h]
    · simp [h, ih]

theorem sortPaths_length (l : List (List Nat)) : (sortPaths l).length = l.length := by
  induction l with
  | nil => rfl
  | cons x rest ih =>
    rw [sortPaths, insertSorted_length, ih]
    simp

theorem insertSorted_mem (x y : List Nat) (l : List (List Nat)) :
    y ∈ insertSorted x l ↔ y = x ∨ y ∈ l := by
  induction l with
  | nil => simp [insertSorted]
  | cons z rest ih =>
    rw [insertSorted]
    by_cases h : lexLe x z
    · simp [h]
    · simp only [h, if_false, Bool.false_eq_true, List.mem_cons, ih]
      tauto

theorem sortPaths_mem (y : List Nat) (l : List (List Nat)) :
    y ∈ sortPaths l ↔ y ∈ l := by
  induction l with
  | nil => simp [sortPaths]
  | cons x rest ih =>
    rw [sortPaths, insertSorted_mem]
    simp [ih]

/-- C9 (amended): `Engine::new_in` with the kvs engine fails with the
engine-mismatch error exactly when the FIRST directory entry that is either
a sled marker (`conf`/`db`) or a `.pingcap` file is a sled marker -- a
marker-first directory fails, while a `.pingcap` file seen earlier hides a
later marker; and `open`'s file selection applies no name filtering at all:
every directory entry, engine file or not, is kept -- the
lexicographically last as the active file, all others as immutable
files. -/
theorem claim_C9 :
    (∀ names, engineNewInKvs names
        = .error "Can't open kvs engine in sled directory"
      ↔ determine_previous_engine names = .sled)
    ∧ (∀ name rest, isSledMarker name = true →
        determine_previous_engine (name :: rest) = .sled)
    ∧ (∀ name rest, isSledMarker name = false → isKvsFile name = true →
        determine_previous_engine (name :: rest) = .kvs)
    ∧ (∀ fresh paths a, (openSelect fresh paths).1 = a → a = fresh ∨ a ∈ paths)
    ∧ (∀ fresh paths, (openSelect fresh paths).2.length = paths.length - 1)
    ∧ (∀ fresh paths p, p ∈ paths →
        p = (openSelect fresh paths).1 ∨ p ∈ (openSelect fresh paths).2) := by
  refine ⟨?_, ?_, ?_, ?_, ?_, ?_⟩
  · intro names
    rw [engineNewInKvs]
    cases h : determine_previous_engine names with
    | sled => simp
    | kvs => simp
    | noneDetected => simp
  · intro name rest h
    rw [determine_previous_engine, if_pos h]
  · intro name rest hm hk
    rw [determine_previous_engine, if_neg (by rw [hm]; exact Bool.false_ne_true),
      if_pos hk]
  · intro fresh paths a ha
    have ha' : ((sortPaths paths).getLast?).getD fresh = a := ha
    cases hgl : (sortPaths paths).getLast? with
    | none =>
      rw [hgl, Option.getD_none] at ha'
      exact Or.inl ha'.symm
    | some b =>
      rw [hgl, Option.getD_some] at ha'
      subst ha'
      refine Or.inr ((sortPaths_mem b paths).mp ?_)
      rw [List.getLast?_eq_getElem?] at hgl
      exact List.getElem?_mem hgl
  · intro fresh paths
    show ((sortPaths paths).dropLast).length = paths.length - 1
    rw [List.length_dropLast, sortPaths_length]
  · intro fresh paths p hp
    have hps : p ∈ sortPaths paths := (sortPaths_mem p paths).mpr hp
    have hne : sortPaths paths ≠ [] := by
      intro h
      rw [h] at hps
      exact absurd hps (List.not_mem_nil p)
    have hsplit := List.dropLast_append_getLast hne
    rw [← hsplit] at hps
    rcases List.mem_append.mp hps with h | h
    · exact Or.inr h
    · left
      have hpe : p = (sortPaths paths).getLast hne := by simpa using h
      show p = ((sortPaths paths).getLast?).getD fresh
      rw [List.getLast?_eq_getLast _ hne, Option.getD_some]
      exact hpe

theorem claim_C9_witness :
    isSledMarker (asciiBytes "conf") = true
    ∧ determine_previous_engine [asciiBytes "conf"] = .sled
    ∧ engineNewInKvs [asciiBytes "conf"]
        = .error "Can't open kvs engine in sled directory"
    ∧ (asciiBytes "zzz.txt") ∈ ([asciiBytes "zzz.txt", asciiBytes "a.pingcap"] : List (List Nat))
    ∧ ((asciiBytes "zzz.txt")
          = (openSelect (asciiBytes "fresh") [asciiBytes "zzz.txt", asciiBytes "a.pingcap"]).1
        ∨ (asciiBytes "zzz.txt")
          ∈ (openSelect (asciiBytes "fresh") [asciiBytes "zzz.txt", asciiBytes "a.pingcap"]).2) :=
  ⟨by decide, claim_C9.2.1 (asciiBytes "conf") [] (by decide),
   (claim_C9.1 [asciiBytes "conf"]).mpr (claim_C9.2.1 (asciiBytes "conf") [] (by decide)),
   by decide,
   claim_C9.2.2.2.2.2 (asciiBytes "fresh")
     [asciiBytes "zzz.txt", asciiBytes "a.pingcap"] (asciiBytes "zzz.txt") (by decide)⟩

/-- C9, counterexample to the original wording: a file bearing neither the
`.pingcap` suffix nor a sled marker name is NOT ignored -- `zzz.txt` is
chosen as the active file ahead of an engine file -- and a directory
containing the sled marker `conf` does NOT make the kvs engine fail when a
`.pingcap` entry is iterated first. -/
theorem claim_C9_counterexample :
    openSelect (asciiBytes "fresh") [asciiBytes "zzz.txt", asciiBytes "a.pingcap"]
      = (asciiBytes "zzz.txt", [asciiBytes "a.pingcap"])
    ∧ isKvsFile (asciiBytes "zzz.txt") = false
    ∧ isSledMarker (asciiBytes "zzz.txt") = false
    ∧ isSledMarker (asciiBytes "conf") = true
    ∧ engineNewInKvs [asciiBytes "a.pingcap", asciiBytes "conf"] = .ok () := by
  refine ⟨by decide, by decide, by decide, by decide, by decide⟩

/-! ## Claim C10 -/

/-- C10: the response codec round-trips on every variant whose payload is
UTF-8 (including the empty `SuccessfulGet` value), and `from_bytes` is
total: empty and non-UTF-8 inputs map to `Err` responses rather than
failing. -/
theorem claim_C10 :
    (∀ r : Response,
      (match r with
        | .successfulGet v => utf8Valid v = true
        | .err m => utf8Valid m = true
        | _ => True) →
      Response.from_bytes (Response.write r) = r)
    ∧ Response.from_bytes [255] = .err (asciiBytes "Invalid utf8")
    ∧ Response.from_bytes [] = .err (asciiBytes "Invalid start byte")
    ∧ Response.from_bytes (Response.write (.successfulGet [])) = .successfulGet [] := by
  refine ⟨?_, by decide, by decide, by decide⟩
  intro r hr
  cases r with
  | successfulSet => decide
  | successfulRm => decide
  | keyNotFound => decide
  | successfulGet v =>
    have h : utf8Valid v = true := hr
    have hv : utf8Valid (103 :: v) = true := by
      rw [utf8Valid_cons_ascii (by decide)]
      exact h
    show Response.from_bytes (103 :: v) = .successfulGet v
    rw [Response.from_bytes, if_pos hv]
    rw [if_neg (by decide), if_neg (by decide), if_pos rfl]
  | err m =>
    have h : utf8Valid m = true := hr
    have hv : utf8Valid (101 :: m) = true := by
      rw [utf8Valid_cons_ascii (by decide)]
      exact h
    show Response.from_bytes (101 :: m) = .err m
    rw [Response.from_bytes, if_pos hv]
    rw [if_neg (by decide), if_neg (by decide), if_neg (by decide),
      if_neg (by decide), if_pos rfl]

theorem claim_C10_witness :
    utf8Valid (asciiBytes "hello") = true
    ∧ Response.from_bytes (Response.write (.successfulGet (asciiBytes "hello")))
        = .successfulGet (asciiBytes "hello")
    ∧ utf8Valid (asciiBytes "oops") = true
    ∧ Response.from_bytes (Response.write (.err (asciiBytes "oops")))
        = .err (asciiBytes "oops") :=
  ⟨by decide, claim_C10.1 (.successfulGet (asciiBytes "hello")) (by decide),
   by decide, claim_C10.1 (.err (asciiBytes "oops")) (by decide)⟩
